import Mathlib

/-!
Verification of the subping subnet-scan engine.

Shallow embedding of the Go sources:
- pkg/network (SubnetHostsIterator, GetFirstIPAddressFromIPNet,
  GetLastIPAddressFromIPNet, CalculateTotalHosts),
- the subping package (NewSubping, NewSubpingWithPinger, Run, startWorker,
  GetOnlineHosts, calculateMaxPartitionSize),
- the internal ping package (Pinger selection: NewPinger / isCIEnvironment,
  the mock pinger's Ping / calculateResult / isLocalhost / isPrivateIP).

An IP address is a big-endian list of byte values (each < 256), exactly the
`net.IP` byte slice; addresses are 4 or 16 bytes long.  Machine integers are
modelled as Nat/Int with explicit wrap-around where the code can overflow.
-/

namespace Subping

/-! ### Byte-level address arithmetic (pkg/network) -/

/-- Every entry of the list is a byte value.  `net.IP` is a byte slice, so this
invariant holds for every address the Go code manipulates. -/
def bytesOK (l : List Nat) : Prop := ∀ b ∈ l, b < 256

instance (l : List Nat) : Decidable (bytesOK l) := by
  unfold bytesOK; infer_instance

/-- Numeric value of a big-endian byte string (`ip[0]` is most significant,
matching the layout of `net.IP`). -/
def beVal : List Nat → Nat
  | [] => 0
  | b :: r => b * 256 ^ r.length + beVal r

/-- The byte-wise increment loop of `SubnetHostsIterator.Next` (and of the
`inc` helper in pkg/network): starting from the last (least significant) byte,
each byte is incremented mod 256 and the loop stops at the first byte that did
not wrap to zero.  Returns the new byte string together with the carry out of
the most significant byte (true iff every visited byte wrapped). -/
def incBE : List Nat → List Nat × Bool
  | [] => ([], true)
  | b :: r =>
    if (incBE r).2 then (((b + 1) % 256) :: (incBE r).1, (b + 1) % 256 == 0)
    else (b :: (incBE r).1, false)

/-- Big-endian byte string of a numeric value, `L` bytes long. -/
def bytesOfNat : Nat → Nat → List Nat
  | 0, _ => []
  | L + 1, v => v / 256 ^ L :: bytesOfNat L (v % 256 ^ L)

theorem beVal_lt {l : List Nat} (h : bytesOK l) : beVal l < 256 ^ l.length := by
  induction l with
  | nil => simp [beVal]
  | cons b r ih =>
    have hb : b < 256 := h b (List.mem_cons_self b r)
    have hr : beVal r < 256 ^ r.length := ih fun x hx => h x (List.mem_cons_of_mem _ hx)
    have hb1 : b + 1 ≤ 256 := hb
    calc b * 256 ^ r.length + beVal r
        < b * 256 ^ r.length + 256 ^ r.length := by omega
      _ = (b + 1) * 256 ^ r.length := by ring
      _ ≤ 256 * 256 ^ r.length := Nat.mul_le_mul_right _ hb1
      _ = 256 ^ (r.length + 1) := by ring

theorem incBE_length (l : List Nat) : (incBE l).1.length = l.length := by
  induction l with
  | nil => rfl
  | cons b r ih =>
    simp only [incBE]
    by_cases h : (incBE r).2 <;> simp [h, ih]

theorem incBE_bytesOK {l : List Nat} (h : bytesOK l) : bytesOK (incBE l).1 := by
  induction l with
  | nil => intro x hx; exact absurd hx (List.not_mem_nil x)
  | cons b r ih =>
    have hb : b < 256 := h b (List.mem_cons_self b r)
    have hr : bytesOK (incBE r).1 := ih fun x hx => h x (List.mem_cons_of_mem _ hx)
    intro x hx
    simp only [incBE] at hx
    by_cases hc : (incBE r).2
    · simp only [hc, if_true] at hx
      rcases List.mem_cons.mp hx with h1 | h2
      · subst h1; exact Nat.mod_lt _ (by norm_num)
      · exact hr x h2
    · simp only [hc, if_false] at hx
      rcases List.mem_cons.mp hx with h1 | h2
      · subst h1; exact hb
      · exact hr x h2

theorem incBE_spec {l : List Nat} (h : bytesOK l) :
    beVal (incBE l).1 = (beVal l + 1) % 256 ^ l.length ∧
    ((incBE l).2 = true ↔ beVal l + 1 = 256 ^ l.length) := by
  induction l with
  | nil => simp [incBE, beVal]
  | cons b r ih =>
    have hb : b < 256 := h b (List.mem_cons_self b r)
    have hok : bytesOK r := fun x hx => h x (List.mem_cons_of_mem _ hx)
    have hr := ih hok
    have hrlt : beVal r < 256 ^ r.length := beVal_lt hok
    simp only [incBE]
    by_cases hc : (incBE r).2
    · -- the lower bytes all wrapped: beVal r + 1 = 256 ^ r.length
      have hwrap : beVal r + 1 = 256 ^ r.length := hr.2.mp hc
      have hv1 : beVal (incBE r).1 = 0 := by
        rw [hr.1, hwrap, Nat.mod_self]
      simp only [hc, if_true]
      constructor
      · show (b + 1) % 256 * 256 ^ (incBE r).1.length + beVal (incBE r).1 =
          (b * 256 ^ r.length + beVal r + 1) % 256 ^ (r.length + 1)
        rw [hv1, incBE_length]
        have : b * 256 ^ r.length + beVal r + 1 = (b + 1) * 256 ^ r.length := by
          rw [Nat.add_mul, Nat.one_mul, ← hwrap]; ring
        rw [this]
        have h256 : (256 : Nat) ^ (r.length + 1) = 256 ^ r.length * 256 := by ring
        rw [h256, Nat.mul_comm (b + 1) (256 ^ r.length), Nat.mul_mod_mul_left]
        ring
      · show ((b + 1) % 256 == 0) = true ↔
          b * 256 ^ r.length + beVal r + 1 = 256 ^ (r.length + 1)
        have hstep : b * 256 ^ r.length + beVal r + 1 = (b + 1) * 256 ^ r.length := by
          rw [Nat.add_mul, Nat.one_mul, ← hwrap]; ring
        rw [hstep]
        constructor
        · intro hmod
          have : (b + 1) % 256 = 0 := by simpa using hmod
          have hb1 : b + 1 = 256 := by omega
          rw [hb1]; ring
        · intro heq
          have h256 : (256 : Nat) ^ (r.length + 1) = 256 * 256 ^ r.length := by ring
          rw [h256] at heq
          have : b + 1 = 256 := Nat.eq_of_mul_eq_mul_right (Nat.pos_pow_of_pos _ (by norm_num)) heq
          simp [this]
    · -- no carry out of the lower bytes
      have hnw : ¬ beVal r + 1 = 256 ^ r.length := fun hq => hc (hr.2.mpr hq)
      simp only [hc, if_false]
      constructor
      · show b * 256 ^ (incBE r).1.length + beVal (incBE r).1 =
          (b * 256 ^ r.length + beVal r + 1) % 256 ^ (r.length + 1)
        rw [incBE_length, hr.1]
        have hsmall : beVal r + 1 < 256 ^ r.length := by omega
        rw [Nat.mod_eq_of_lt hsmall]
        have htot : b * 256 ^ r.length + beVal r + 1 < 256 ^ (r.length + 1) := by
          have : (b + 1) * 256 ^ r.length ≤ 256 ^ (r.length + 1) := by
            have : b + 1 ≤ 256 := hb
            calc (b + 1) * 256 ^ r.length ≤ 256 * 256 ^ r.length :=
                  Nat.mul_le_mul_right _ this
              _ = 256 ^ (r.length + 1) := by ring
          have hx : b * 256 ^ r.length + (beVal r + 1) < (b + 1) * 256 ^ r.length := by
            have := hsmall
            calc b * 256 ^ r.length + (beVal r + 1) < b * 256 ^ r.length + 256 ^ r.length := by omega
              _ = (b + 1) * 256 ^ r.length := by ring
          omega
        rw [Nat.mod_eq_of_lt htot]
        omega
      · show (false = true) ↔ b * 256 ^ r.length + beVal r + 1 = 256 ^ (r.length + 1)
        simp only [Bool.false_eq_true, false_iff]
        intro heq
        have hsmall : beVal r + 1 < 256 ^ r.length := by omega
        have : b * 256 ^ r.length + beVal r + 1 < 256 ^ (r.length + 1) := by
          have h1 : (b + 1) * 256 ^ r.length ≤ 256 * 256 ^ r.length :=
            Nat.mul_le_mul_right _ hb
          have h2 : b * 256 ^ r.length + (beVal r + 1) < (b + 1) * 256 ^ r.length := by
            calc b * 256 ^ r.length + (beVal r + 1) < b * 256 ^ r.length + 256 ^ r.length := by omega
              _ = (b + 1) * 256 ^ r.length := by ring
          have h3 : (256 : Nat) ^ (r.length + 1) = 256 * 256 ^ r.length := by ring
          omega
        omega

theorem bytesOfNat_length (L v : Nat) : (bytesOfNat L v).length = L := by
  induction L generalizing v with
  | zero => rfl
  | succ L ih => simp [bytesOfNat, ih]

theorem bytesOfNat_ok {L v : Nat} (h : v < 256 ^ L) : bytesOK (bytesOfNat L v) := by
  induction L generalizing v with
  | zero => simp [bytesOfNat, bytesOK]
  | succ L ih =>
    intro x hx
    simp only [bytesOfNat, List.mem_cons] at hx
    rcases hx with h1 | h2
    · subst h1
      have : v / 256 ^ L < 256 := Nat.div_lt_of_lt_mul (by rw [pow_succ] at h; omega)
      exact this
    · exact ih (Nat.mod_lt _ (Nat.pos_pow_of_pos _ (by norm_num))) x h2

theorem beVal_bytesOfNat {L v : Nat} (h : v < 256 ^ L) : beVal (bytesOfNat L v) = v := by
  induction L generalizing v with
  | zero =>
    simp only [bytesOfNat, beVal]
    omega
  | succ L ih =>
    simp only [bytesOfNat, beVal, bytesOfNat_length]
    rw [ih (Nat.mod_lt _ (Nat.pos_pow_of_pos _ (by norm_num)))]
    rw [Nat.mul_comm]
    exact Nat.div_add_mod v (256 ^ L)

theorem bytesOfNat_beVal {l : List Nat} (h : bytesOK l) :
    bytesOfNat l.length (beVal l) = l := by
  induction l with
  | nil => rfl
  | cons b r ih =>
    have hb : b < 256 := h b (List.mem_cons_self b r)
    have hok : bytesOK r := fun x hx => h x (List.mem_cons_of_mem _ hx)
    have hr : beVal r < 256 ^ r.length := beVal_lt hok
    show bytesOfNat (r.length + 1) (b * 256 ^ r.length + beVal r) = b :: r
    simp only [bytesOfNat]
    have hdiv : (b * 256 ^ r.length + beVal r) / 256 ^ r.length = b := by
      rw [Nat.mul_comm b, Nat.mul_add_div (Nat.pos_pow_of_pos _ (by norm_num)),
        Nat.div_eq_of_lt hr]
      omega
    have hmod : (b * 256 ^ r.length + beVal r) % 256 ^ r.length = beVal r := by
      rw [Nat.mul_comm b, Nat.mul_add_mod, Nat.mod_eq_of_lt hr]
    rw [hdiv, hmod, ih hok]

theorem pow256 (L : Nat) : (256 : Nat) ^ L = 2 ^ (8 * L) := by
  have : (256 : Nat) = 2 ^ 8 := by norm_num
  rw [this, ← pow_mul]

theorem incBE_bytesOfNat {L v : Nat} (h : v < 256 ^ L) :
    (incBE (bytesOfNat L v)).1 = bytesOfNat L ((v + 1) % 256 ^ L) := by
  have hok : bytesOK (bytesOfNat L v) := bytesOfNat_ok h
  have hok2 : bytesOK (incBE (bytesOfNat L v)).1 := incBE_bytesOK hok
  have hlen : (incBE (bytesOfNat L v)).1.length = L := by
    rw [incBE_length, bytesOfNat_length]
  have hval : beVal (incBE (bytesOfNat L v)).1 = (v + 1) % 256 ^ L := by
    have := (incBE_spec hok).1
    rw [this, beVal_bytesOfNat h, bytesOfNat_length]
  calc (incBE (bytesOfNat L v)).1
      = bytesOfNat (incBE (bytesOfNat L v)).1.length (beVal (incBE (bytesOfNat L v)).1) :=
        (bytesOfNat_beVal hok2).symm
    _ = bytesOfNat L ((v + 1) % 256 ^ L) := by rw [hlen, hval]

/-! ### CIDR masks and subnet membership (net.CIDRMask / net.IPNet.Contains) -/

/-- The mask byte string produced by `net.CIDRMask(p, 8*L)` (and hence stored in
the `net.IPNet` returned by `net.ParseCIDR`): `p` leading one bits followed by
zero bits.  Each byte is 255 while at least 8 prefix bits remain, and
`256 - 2^(8-p)` for the byte in which the prefix ends (which is 0 when no
prefix bits remain). -/
def maskBytes : Nat → Nat → List Nat
  | 0, _ => []
  | L + 1, p => (if 8 ≤ p then 255 else 256 - 2 ^ (8 - p)) :: maskBytes L (p - 8)

/-- The byte comparison loop of `net.IPNet.Contains`:
`for i := 0; i < l; i++ { if nn[i]&m[i] != ip[i]&m[i] { return false } }`.
Both the network byte and the probe byte are masked before comparison. -/
def containsLoop : List Nat → List Nat → List Nat → Bool
  | [], [], [] => true
  | n :: nr, m :: mr, i :: ir => (Nat.land n m == Nat.land i m) && containsLoop nr mr ir
  | _, _, _ => false

/-- The 12-byte prefix `v4InV6Prefix` of an IPv4-mapped IPv6 address
(`::ffff:a.b.c.d`): ten zero bytes followed by `0xff, 0xff`. -/
def v4InV6Prefix : List Nat := [0, 0, 0, 0, 0, 0, 0, 0, 0, 0, 255, 255]

/-- `net.IP.To4`: a 4-byte address is returned unchanged; a 16-byte address is
reduced to its last 4 bytes when `isZeros(ip[0:10]) && ip[10] == 0xff &&
ip[11] == 0xff` (i.e. its first 12 bytes are `v4InV6Prefix`); anything else
yields nil. -/
def to4 (b : List Nat) : Option (List Nat) :=
  if b.length == 4 then some b
  else if b.length == 16 && b.take 12 == v4InV6Prefix then some (b.drop 12)
  else none

/-- `net.networkNumberAndMask`: the network address is To4-normalized
(`if ip = n.IP.To4(); ip == nil { ip = n.IP; if len(ip) != IPv6len { return
nil, nil } }`), and the mask is cut to its last 4 bytes when the mask is
16 bytes long but the normalized network is 4 bytes
(`case 16: if len(ip) == 4 { m = m[12:] }`); a 4-byte mask with a 16-byte
network yields nil.  The Go nil, nil outcome is modelled as `([], [])`. -/
def netNumberAndMask (netB maskB : List Nat) : List Nat × List Nat :=
  match to4 netB with
  | some nn =>
    if maskB.length == 16 then (nn, maskB.drop 12) else (nn, maskB)
  | none =>
    if netB.length == 16 then
      (if maskB.length == 4 then ([], []) else (netB, maskB))
    else ([], [])

/-- `net.IPNet.Contains`: normalize the network and mask with
`networkNumberAndMask`, To4-normalize the probe
(`if x := ip.To4(); x != nil { ip = x }`), require the lengths to agree
(`if l != len(nn) { return false }`), then run the masked byte comparison
loop. -/
def ipnetContains (netB maskB ip : List Nat) : Bool :=
  let nm := netNumberAndMask netB maskB
  let ip2 := match to4 ip with | some x => x | none => ip
  (ip2.length == nm.1.length) && containsLoop nm.1 nm.2 ip2

/-- The 128-bit values of IPv4-mapped IPv6 addresses: exactly the 16-byte
addresses whose first 12 bytes are `v4InV6Prefix`. -/
def inV4Range (v : Nat) : Prop := 2 ^ 48 - 2 ^ 32 ≤ v ∧ v < 2 ^ 48

instance (v : Nat) : Decidable (inV4Range v) := by
  unfold inV4Range; infer_instance

/-- `GetLastIPAddressFromIPNet`: copy the network address andOR each byte with
the complement of the mask byte (`lastIP[i] |= ^ipNet.Mask[i]`; for byte
values the complement of `m` is `255 - m`). -/
def lastBytes : List Nat → List Nat → List Nat
  | n :: nr, m :: mr => Nat.lor n (255 - m) :: lastBytes nr mr
  | _, _ => []

set_option maxRecDepth 4000 in
theorem land_byte_mask : ∀ i < 256, ∀ k < 9,
    Nat.land i (256 - 2 ^ k) = i / 2 ^ k * 2 ^ k := by decide

set_option maxRecDepth 4000 in
theorem lor_byte_255 : ∀ b < 256, Nat.lor b 255 = 255 := by decide

set_option maxRecDepth 4000 in
theorem lor_byte_low : ∀ b < 256, ∀ k < 9,
    b % 2 ^ k = 0 → Nat.lor b (2 ^ k - 1) = b + (2 ^ k - 1) := by decide

theorem mul_add_le_iff {x i n v : Nat} (hvr : v < x) :
    n * x ≤ i * x + v ↔ n ≤ i := by
  constructor
  · intro hle
    by_contra hni
    push_neg at hni
    have h1 : i + 1 ≤ n := hni
    have h2 : (i + 1) * x ≤ n * x := Nat.mul_le_mul_right x h1
    have h3 : (i + 1) * x = i * x + x := by ring
    omega
  · intro hni
    have := Nat.mul_le_mul_right x hni
    omega

theorem mul_add_lt_iff {x i n v : Nat} (hvr : v < x) :
    i * x + v < n * x ↔ i < n := by
  constructor
  · intro hlt
    by_contra hni
    push_neg at hni
    have := Nat.mul_le_mul_right x hni
    omega
  · intro hni
    have h1 : i + 1 ≤ n := hni
    have h2 : (i + 1) * x ≤ n * x := Nat.mul_le_mul_right x h1
    have h3 : (i + 1) * x = i * x + x := by ring
    omega

theorem div_mul_eq_iff {i n k2 : Nat} (hpos : 0 < k2) (hn : n % k2 = 0) :
    i / k2 * k2 = n ↔ n ≤ i ∧ i < n + k2 := by
  have hdm := Nat.div_add_mod i k2
  have hmlt : i % k2 < k2 := Nat.mod_lt _ hpos
  constructor
  · intro he
    have h1 : i / k2 * k2 ≤ i := Nat.div_mul_le_self i k2
    have h2 : k2 * (i / k2) = i / k2 * k2 := Nat.mul_comm _ _
    omega
  · rintro ⟨h1, h2⟩
    obtain ⟨a, ha⟩ : k2 ∣ n := Nat.dvd_of_mod_eq_zero hn
    have hcomm : a * k2 = k2 * a := Nat.mul_comm _ _
    have hdiv : i / k2 = a := by
      have hlo : a * k2 ≤ i := by rw [ha] at h1; omega
      have hhi : i < (a + 1) * k2 := by
        have hstep : (a + 1) * k2 = a * k2 + k2 := by ring
        rw [ha] at h2; omega
      have := Nat.div_eq_of_lt_le hlo hhi
      exact this
    rw [hdiv, ha]; ring

theorem land_byte_zero {b : Nat} (hb : b < 256) : Nat.land b 0 = 0 := by
  have hland : Nat.land b 0 = b / 2 ^ 8 * 2 ^ 8 := by
    have := land_byte_mask b hb 8 (by norm_num)
    simpa using this
  have hd : b / 2 ^ 8 = 0 := Nat.div_eq_of_lt (by omega)
  rw [hland, hd]; ring

theorem containsLoop_zero_mask : ∀ (nb ir : List Nat), bytesOK nb → bytesOK ir →
    ir.length = nb.length →
    containsLoop nb (maskBytes nb.length 0) ir = true := by
  intro nb
  induction nb with
  | nil =>
    intro ir _ _ hlen
    rw [List.length_eq_zero.mp hlen]
    rfl
  | cons n nr ih =>
    intro ir hnb hir hlen
    match ir, hlen with
    | i :: ir', hlen =>
      have hi : i < 256 := hir i (List.mem_cons_self _ _)
      have hn : n < 256 := hnb n (List.mem_cons_self _ _)
      show ((Nat.land n (if (8:Nat) ≤ 0 then 255 else 256 - 2 ^ (8 - 0)) ==
          Nat.land i (if (8:Nat) ≤ 0 then 255 else 256 - 2 ^ (8 - 0))) &&
        containsLoop nr (maskBytes nr.length (0 - 8)) ir') = true
      have hm : (if (8:Nat) ≤ 0 then 255 else 256 - 2 ^ (8 - 0)) = 0 := by norm_num
      rw [hm, land_byte_zero hn, land_byte_zero hi]
      simp only [beq_self_eq_true, Bool.true_and]
      exact ih ir' (fun x hx => hnb x (List.mem_cons_of_mem _ hx))
        (fun x hx => hir x (List.mem_cons_of_mem _ hx))
        (by simpa using hlen)

theorem containsLoop_iff : ∀ (nb ip : List Nat), bytesOK nb → bytesOK ip →
    ip.length = nb.length → ∀ p, p ≤ 8 * nb.length →
    beVal nb % 2 ^ (8 * nb.length - p) = 0 →
    (containsLoop nb (maskBytes nb.length p) ip = true ↔
      beVal nb ≤ beVal ip ∧ beVal ip < beVal nb + 2 ^ (8 * nb.length - p)) := by
  intro nb
  induction nb with
  | nil =>
    intro ip _ _ hlen p hp _
    rw [List.length_eq_zero.mp hlen]
    simp [containsLoop, maskBytes, beVal]
  | cons n nr ih =>
    intro ip hnbOK hipOK hlen p hp halign
    match ip, hlen with
    | i :: ir, hlen =>
    have hi : i < 256 := hipOK i (List.mem_cons_self _ _)
    have hn : n < 256 := hnbOK n (List.mem_cons_self _ _)
    have hnrOK : bytesOK nr := fun x hx => hnbOK x (List.mem_cons_of_mem _ hx)
    have hirOK : bytesOK ir := fun x hx => hipOK x (List.mem_cons_of_mem _ hx)
    have hlen2 : ir.length = nr.length := by
      have := hlen; simpa using this
    have hXpos : 0 < 256 ^ nr.length := Nat.pos_pow_of_pos _ (by norm_num)
    have hNrlt : beVal nr < 256 ^ nr.length := beVal_lt hnrOK
    have hvrlt : beVal ir < 256 ^ nr.length := by
      have := beVal_lt hirOK; rwa [hlen2] at this
    simp only [List.length_cons] at hp
    simp only [List.length_cons, beVal] at halign
    simp only [List.length_cons, maskBytes, containsLoop, beVal, hlen2]
    by_cases hc : 8 ≤ p
    · rw [if_pos hc]
      have hl : Nat.land i 255 = i := by
        have h0 := land_byte_mask i hi 0 (by norm_num)
        simpa using h0
      have hln : Nat.land n 255 = n := by
        have h0 := land_byte_mask n hn 0 (by norm_num)
        simpa using h0
      rw [hln, hl]
      have hheq : 8 * (nr.length + 1) - p = 8 * nr.length - (p - 8) := by omega
      rw [hheq] at halign ⊢
      have hdvd : (2:Nat) ^ (8 * nr.length - (p - 8)) ∣ 256 ^ nr.length := by
        rw [pow256]; exact pow_dvd_pow 2 (by omega)
      obtain ⟨c, hc2⟩ := hdvd
      have halign2 : beVal nr % 2 ^ (8 * nr.length - (p - 8)) = 0 := by
        have he : n * 256 ^ nr.length + beVal nr
            = 2 ^ (8 * nr.length - (p - 8)) * (n * c) + beVal nr := by rw [hc2]; ring
        rw [he, Nat.mul_add_mod] at halign
        exact halign
      have htail := ih ir hnrOK hirOK hlen2 (p - 8) (by omega) halign2
      have hblock : beVal nr + 2 ^ (8 * nr.length - (p - 8)) ≤ 256 ^ nr.length := by
        obtain ⟨bq, hbq⟩ := Nat.dvd_of_mod_eq_zero halign2
        have hbqc : bq < c := by
          by_contra hcb
          push_neg at hcb
          have := Nat.mul_le_mul_left (2 ^ (8 * nr.length - (p - 8))) hcb
          omega
        have hs := Nat.mul_le_mul_left (2 ^ (8 * nr.length - (p - 8)))
          (show bq + 1 ≤ c by omega)
        have hmul : 2 ^ (8 * nr.length - (p - 8)) * (bq + 1)
            = beVal nr + 2 ^ (8 * nr.length - (p - 8)) := by rw [hbq]; ring
        omega
      constructor
      · intro hand
        rw [Bool.and_eq_true, beq_iff_eq] at hand
        obtain ⟨hieq, htl⟩ := hand
        obtain ⟨h1, h2⟩ := htail.mp htl
        subst hieq
        exact ⟨by omega, by omega⟩
      · rintro ⟨h1, h2⟩
        have hge : n ≤ i := by
          apply (mul_add_le_iff (x := 256 ^ nr.length) (i := i) (n := n)
            (v := beVal ir) hvrlt).mp
          omega
        have hlt : i < n + 1 := by
          apply (mul_add_lt_iff (x := 256 ^ nr.length) (i := i) (n := n + 1)
            (v := beVal ir) hvrlt).mp
          have hexp : (n + 1) * 256 ^ nr.length
              = n * 256 ^ nr.length + 256 ^ nr.length := by ring
          omega
        have hieq : i = n := by omega
        subst hieq
        rw [Bool.and_eq_true, beq_iff_eq]
        exact ⟨rfl, htail.mpr ⟨by omega, by omega⟩⟩
    · rw [if_neg hc]
      push_neg at hc
      have hk9 : 8 - p < 9 := by omega
      have hkpos : 0 < (2:Nat) ^ (8 - p) := Nat.pos_pow_of_pos _ (by norm_num)
      have hheq : 8 * (nr.length + 1) - p = 8 * nr.length + (8 - p) := by omega
      rw [hheq] at halign ⊢
      have h2h : (2:Nat) ^ (8 * nr.length + (8 - p)) = 2 ^ (8 - p) * 256 ^ nr.length := by
        rw [pow256, pow_add]; ring
      have hXd : (256:Nat) ^ nr.length ∣ 2 ^ (8 * nr.length + (8 - p)) := by
        rw [pow256]; exact pow_dvd_pow 2 (by omega)
      have hNX : (n * 256 ^ nr.length + beVal nr) % 256 ^ nr.length = 0 := by
        have hmm := Nat.mod_mod_of_dvd (n * 256 ^ nr.length + beVal nr) hXd
        rw [halign] at hmm
        simpa using hmm.symm
      have hNr0 : beVal nr = 0 := by
        rw [Nat.mul_comm n, Nat.mul_add_mod] at hNX
        rwa [Nat.mod_eq_of_lt hNrlt] at hNX
      have hdm := Nat.div_add_mod n (2 ^ (8 - p))
      have hrlt : n % 2 ^ (8 - p) < 2 ^ (8 - p) := Nat.mod_lt _ hkpos
      have hmod : n * 256 ^ nr.length % 2 ^ (8 * nr.length + (8 - p))
          = n % 2 ^ (8 - p) * 256 ^ nr.length := by
        have hsplit : n * 256 ^ nr.length
            = 2 ^ (8 * nr.length + (8 - p)) * (n / 2 ^ (8 - p))
              + n % 2 ^ (8 - p) * 256 ^ nr.length := by
          rw [h2h]
          calc n * 256 ^ nr.length
              = (2 ^ (8 - p) * (n / 2 ^ (8 - p)) + n % 2 ^ (8 - p)) * 256 ^ nr.length := by
                rw [hdm]
            _ = 2 ^ (8 - p) * 256 ^ nr.length * (n / 2 ^ (8 - p))
                + n % 2 ^ (8 - p) * 256 ^ nr.length := by ring
        rw [hsplit, Nat.mul_add_mod]
        apply Nat.mod_eq_of_lt
        rw [h2h]
        exact Nat.mul_lt_mul_of_lt_of_le hrlt (Nat.le_refl _) hXpos
      have hn0 : n % 2 ^ (8 - p) = 0 := by
        rw [hNr0] at halign
        have hz : n * 256 ^ nr.length % 2 ^ (8 * nr.length + (8 - p)) = 0 := by
          simpa using halign
        rw [hmod] at hz
        rcases Nat.mul_eq_zero.mp hz with h | h
        · exact h
        · omega
      have hl := land_byte_mask i hi (8 - p) hk9
      have hln : Nat.land n (256 - 2 ^ (8 - p)) = n := by
        rw [land_byte_mask n hn (8 - p) hk9]
        exact Nat.div_mul_cancel (Nat.dvd_of_mod_eq_zero hn0)
      rw [hln, hl]
      have htail : containsLoop nr (maskBytes nr.length (p - 8)) ir = true := by
        have hp8 : p - 8 = 0 := by omega
        rw [hp8]
        exact containsLoop_zero_mask nr ir hnrOK hirOK hlen2
      rw [htail, Bool.and_true, beq_iff_eq]
      rw [eq_comm, div_mul_eq_iff hkpos hn0, hNr0]
      constructor
      · rintro ⟨h1, h2⟩
        constructor
        · have := (mul_add_le_iff (x := 256 ^ nr.length) hvrlt).mpr h1
          omega
        · have hi2 := (mul_add_lt_iff (x := 256 ^ nr.length)
            (n := n + 2 ^ (8 - p)) hvrlt).mpr h2
          have hexp : (n + 2 ^ (8 - p)) * 256 ^ nr.length
              = n * 256 ^ nr.length + 2 ^ (8 - p) * 256 ^ nr.length := by ring
          rw [h2h]
          omega
      · rintro ⟨h1, h2⟩
        constructor
        · exact (mul_add_le_iff (x := 256 ^ nr.length) hvrlt).mp (by omega)
        · apply (mul_add_lt_iff (x := 256 ^ nr.length)
            (n := n + 2 ^ (8 - p)) hvrlt).mp
          have hexp : (n + 2 ^ (8 - p)) * 256 ^ nr.length
              = n * 256 ^ nr.length + 2 ^ (8 - p) * 256 ^ nr.length := by ring
          rw [h2h] at h2
          omega

theorem align_split {n : Nat} {nr : List Nat} (hnrOK : bytesOK nr) {p : Nat}
    (hc : p < 8)
    (halign : (n * 256 ^ nr.length + beVal nr) % 2 ^ (8 * nr.length + (8 - p)) = 0) :
    beVal nr = 0 ∧ n % 2 ^ (8 - p) = 0 := by
  have hXpos : 0 < 256 ^ nr.length := Nat.pos_pow_of_pos _ (by norm_num)
  have hNrlt : beVal nr < 256 ^ nr.length := beVal_lt hnrOK
  have hkpos : 0 < (2:Nat) ^ (8 - p) := Nat.pos_pow_of_pos _ (by norm_num)
  have h2h : (2:Nat) ^ (8 * nr.length + (8 - p)) = 2 ^ (8 - p) * 256 ^ nr.length := by
    rw [pow256, pow_add]; ring
  have hXd : (256:Nat) ^ nr.length ∣ 2 ^ (8 * nr.length + (8 - p)) := by
    rw [pow256]; exact pow_dvd_pow 2 (by omega)
  have hNX : (n * 256 ^ nr.length + beVal nr) % 256 ^ nr.length = 0 := by
    have hmm := Nat.mod_mod_of_dvd (n * 256 ^ nr.length + beVal nr) hXd
    rw [halign] at hmm
    simpa using hmm.symm
  have hNr0 : beVal nr = 0 := by
    rw [Nat.mul_comm n, Nat.mul_add_mod] at hNX
    rwa [Nat.mod_eq_of_lt hNrlt] at hNX
  refine ⟨hNr0, ?_⟩
  have hdm := Nat.div_add_mod n (2 ^ (8 - p))
  have hrlt : n % 2 ^ (8 - p) < 2 ^ (8 - p) := Nat.mod_lt _ hkpos
  have hmod : n * 256 ^ nr.length % 2 ^ (8 * nr.length + (8 - p))
      = n % 2 ^ (8 - p) * 256 ^ nr.length := by
    have hsplit : n * 256 ^ nr.length
        = 2 ^ (8 * nr.length + (8 - p)) * (n / 2 ^ (8 - p))
          + n % 2 ^ (8 - p) * 256 ^ nr.length := by
      rw [h2h]
      calc n * 256 ^ nr.length
          = (2 ^ (8 - p) * (n / 2 ^ (8 - p)) + n % 2 ^ (8 - p)) * 256 ^ nr.length := by
            rw [hdm]
        _ = 2 ^ (8 - p) * 256 ^ nr.length * (n / 2 ^ (8 - p))
            + n % 2 ^ (8 - p) * 256 ^ nr.length := by ring
    rw [hsplit, Nat.mul_add_mod]
    apply Nat.mod_eq_of_lt
    rw [h2h]
    exact Nat.mul_lt_mul_of_lt_of_le hrlt (Nat.le_refl _) hXpos
  rw [hNr0] at halign
  have hz : n * 256 ^ nr.length % 2 ^ (8 * nr.length + (8 - p)) = 0 := by
    simpa using halign
  rw [hmod] at hz
  rcases Nat.mul_eq_zero.mp hz with h | h
  · exact h
  · omega

theorem lastBytes_zero_mask : ∀ (nr : List Nat), bytesOK nr →
    beVal (lastBytes nr (maskBytes nr.length 0)) = 256 ^ nr.length - 1 ∧
    bytesOK (lastBytes nr (maskBytes nr.length 0)) ∧
    (lastBytes nr (maskBytes nr.length 0)).length = nr.length := by
  intro nr
  induction nr with
  | nil => intro _; exact ⟨rfl, fun x hx => absurd hx (List.not_mem_nil x), rfl⟩
  | cons b r ih =>
    intro hok
    have hb : b < 256 := hok b (List.mem_cons_self _ _)
    have hrOK : bytesOK r := fun x hx => hok x (List.mem_cons_of_mem _ hx)
    obtain ⟨ihv, ihok, ihlen⟩ := ih hrOK
    have hm : (if (8:Nat) ≤ 0 then 255 else 256 - 2 ^ (8 - 0)) = 0 := by norm_num
    have hlor : Nat.lor b (255 - 0) = 255 := lor_byte_255 b hb
    constructor
    · show beVal (Nat.lor b (255 - (if (8:Nat) ≤ 0 then 255 else 256 - 2 ^ (8 - 0)))
        :: lastBytes r (maskBytes r.length (0 - 8))) = 256 ^ (r.length + 1) - 1
      rw [hm, hlor]
      simp only [beVal, ihlen, ihv]
      have hXpos : 0 < 256 ^ r.length := Nat.pos_pow_of_pos _ (by norm_num)
      have : (256:Nat) ^ (r.length + 1) = 256 * 256 ^ r.length := by ring
      omega
    constructor
    · intro x hx
      rcases List.mem_cons.mp hx with h1 | h2
      · rw [hm, hlor] at h1
        omega
      · exact ihok x h2
    · show (Nat.lor b (255 - (if (8:Nat) ≤ 0 then 255 else 256 - 2 ^ (8 - 0)))
        :: lastBytes r (maskBytes r.length (0 - 8))).length = r.length + 1
      simp [ihlen]

theorem lastBytes_spec : ∀ (nb : List Nat), bytesOK nb → ∀ p, p ≤ 8 * nb.length →
    beVal nb % 2 ^ (8 * nb.length - p) = 0 →
    beVal (lastBytes nb (maskBytes nb.length p))
      = beVal nb + 2 ^ (8 * nb.length - p) - 1 ∧
    bytesOK (lastBytes nb (maskBytes nb.length p)) ∧
    (lastBytes nb (maskBytes nb.length p)).length = nb.length := by
  intro nb
  induction nb with
  | nil =>
    intro _ p hp _
    simp only [List.length_nil] at hp
    have : p = 0 := by omega
    subst this
    exact ⟨rfl, fun x hx => absurd hx (List.not_mem_nil x), rfl⟩
  | cons n nr ih =>
    intro hok p hp halign
    have hn : n < 256 := hok n (List.mem_cons_self _ _)
    have hnrOK : bytesOK nr := fun x hx => hok x (List.mem_cons_of_mem _ hx)
    have hXpos : 0 < 256 ^ nr.length := Nat.pos_pow_of_pos _ (by norm_num)
    have hNrlt : beVal nr < 256 ^ nr.length := beVal_lt hnrOK
    simp only [List.length_cons] at hp
    simp only [List.length_cons, beVal] at halign
    simp only [List.length_cons, maskBytes, lastBytes, beVal]
    by_cases hc : 8 ≤ p
    · rw [if_pos hc]
      have hheq : 8 * (nr.length + 1) - p = 8 * nr.length - (p - 8) := by omega
      rw [hheq] at halign ⊢
      have hdvd : (2:Nat) ^ (8 * nr.length - (p - 8)) ∣ 256 ^ nr.length := by
        rw [pow256]; exact pow_dvd_pow 2 (by omega)
      obtain ⟨c, hc2⟩ := hdvd
      have halign2 : beVal nr % 2 ^ (8 * nr.length - (p - 8)) = 0 := by
        have he : n * 256 ^ nr.length + beVal nr
            = 2 ^ (8 * nr.length - (p - 8)) * (n * c) + beVal nr := by rw [hc2]; ring
        rw [he, Nat.mul_add_mod] at halign
        exact halign
      obtain ⟨ihv, ihok, ihlen⟩ := ih hnrOK (p - 8) (by omega) halign2
      have hepos : 0 < (2:Nat) ^ (8 * nr.length - (p - 8)) := Nat.pos_pow_of_pos _ (by norm_num)
      have hlor : Nat.lor n (255 - 255) = n := by
        have h0 := lor_byte_low n hn 0 (by norm_num) (Nat.mod_one n)
        simpa using h0
      rw [hlor]
      refine ⟨?_, ?_, ?_⟩
      · rw [ihlen, ihv]
        omega
      · intro x hx
        rcases List.mem_cons.mp hx with h1 | h2
        · omega
        · exact ihok x h2
      · simp [ihlen]
    · rw [if_neg hc]
      push_neg at hc
      have hheq : 8 * (nr.length + 1) - p = 8 * nr.length + (8 - p) := by omega
      rw [hheq] at halign ⊢
      obtain ⟨hNr0, hn0⟩ := align_split hnrOK hc halign
      have hkpos : 0 < (2:Nat) ^ (8 - p) := Nat.pos_pow_of_pos _ (by norm_num)
      have hkle : (2:Nat) ^ (8 - p) ≤ 256 := by
        have : (2:Nat) ^ (8 - p) ≤ 2 ^ 8 := Nat.pow_le_pow_right (by norm_num) (by omega)
        simpa using this
      have hcompl : (255:Nat) - (256 - 2 ^ (8 - p)) = 2 ^ (8 - p) - 1 := by omega
      rw [hcompl]
      have hlor := lor_byte_low n hn (8 - p) (by omega) hn0
      rw [hlor]
      have hp8 : p - 8 = 0 := by omega
      rw [hp8]
      obtain ⟨zv, zok, zlen⟩ := lastBytes_zero_mask nr hnrOK
      refine ⟨?_, ?_, ?_⟩
      · rw [zlen, zv, hNr0]
        have h2h : (2:Nat) ^ (8 * nr.length + (8 - p)) = 2 ^ (8 - p) * 256 ^ nr.length := by
          rw [pow256, pow_add]; ring
        have hnb : n + (2 ^ (8 - p) - 1) < 256 := by
          have hnlt : n < 256 := hn
          have : n + 2 ^ (8 - p) ≤ 256 := by
            obtain ⟨a, ha⟩ := Nat.dvd_of_mod_eq_zero hn0
            have h8 : (2:Nat) ^ (8 - p) ∣ 256 := by
              have : (256:Nat) = 2 ^ 8 := by norm_num
              rw [this]
              exact pow_dvd_pow 2 (by omega)
            obtain ⟨c8, hc8⟩ := h8
            have hac : a < c8 := by
              by_contra hcb
              push_neg at hcb
              have := Nat.mul_le_mul_left (2 ^ (8 - p)) hcb
              omega
            have hs := Nat.mul_le_mul_left (2 ^ (8 - p)) (show a + 1 ≤ c8 by omega)
            have hmul : 2 ^ (8 - p) * (a + 1) = n + 2 ^ (8 - p) := by rw [ha]; ring
            omega
          omega
        have hmulid : (n + (2 ^ (8 - p) - 1)) * 256 ^ nr.length + (256 ^ nr.length - 1)
            = n * 256 ^ nr.length + 2 ^ (8 - p) * 256 ^ nr.length - 1 := by
          have hx : (n + (2 ^ (8 - p) - 1)) * 256 ^ nr.length
              = n * 256 ^ nr.length + (2 ^ (8 - p) - 1) * 256 ^ nr.length := by ring
          have hy : (2 ^ (8 - p) - 1) * 256 ^ nr.length + 256 ^ nr.length
              = 2 ^ (8 - p) * 256 ^ nr.length := by
            have : (2 ^ (8 - p) - 1) + 1 = 2 ^ (8 - p) := by omega
            calc (2 ^ (8 - p) - 1) * 256 ^ nr.length + 256 ^ nr.length
                = ((2 ^ (8 - p) - 1) + 1) * 256 ^ nr.length := by ring
              _ = 2 ^ (8 - p) * 256 ^ nr.length := by rw [this]
          omega
        rw [h2h]
        omega
      · intro x hx
        rcases List.mem_cons.mp hx with h1 | h2
        · subst h1
          obtain ⟨a, ha⟩ := Nat.dvd_of_mod_eq_zero hn0
          have h8 : (2:Nat) ^ (8 - p) ∣ 256 := by
            have h256 : (256:Nat) = 2 ^ 8 := by norm_num
            rw [h256]
            exact pow_dvd_pow 2 (by omega)
          obtain ⟨c8, hc8⟩ := h8
          have hac : a < c8 := by
            by_contra hcb
            push_neg at hcb
            have := Nat.mul_le_mul_left (2 ^ (8 - p)) hcb
            omega
          have hs := Nat.mul_le_mul_left (2 ^ (8 - p)) (show a + 1 ≤ c8 by omega)
          have hmul : 2 ^ (8 - p) * (a + 1) = n + 2 ^ (8 - p) := by rw [ha]; ring
          omega
        · exact zok x h2
      · simp [zlen]

/-- Byte-wise lexicographic strict order on equal-length byte strings, the
order induced by `bytes.Compare` on the raw address bytes. -/
def lexLtBytes : List Nat → List Nat → Bool
  | _, [] => false
  | [], _ :: _ => true
  | a :: ar, b :: br => if a < b then true else if b < a then false else lexLtBytes ar br

theorem lexLtBytes_iff : ∀ (l1 l2 : List Nat), bytesOK l1 → bytesOK l2 →
    l1.length = l2.length → (lexLtBytes l1 l2 = true ↔ beVal l1 < beVal l2) := by
  intro l1
  induction l1 with
  | nil =>
    intro l2 _ _ hlen
    rw [(List.length_eq_zero.mp hlen.symm : l2 = [])]
    simp [lexLtBytes]
  | cons a ar ih =>
    intro l2 h1 h2 hlen
    match l2, hlen with
    | b :: br, hlen =>
    have ha : a < 256 := h1 a (List.mem_cons_self _ _)
    have hb : b < 256 := h2 b (List.mem_cons_self _ _)
    have harOK : bytesOK ar := fun x hx => h1 x (List.mem_cons_of_mem _ hx)
    have hbrOK : bytesOK br := fun x hx => h2 x (List.mem_cons_of_mem _ hx)
    have hlen2 : ar.length = br.length := by simpa using hlen
    have hvar : beVal ar < 256 ^ ar.length := beVal_lt harOK
    have hvbr : beVal br < 256 ^ br.length := beVal_lt hbrOK
    simp only [lexLtBytes, beVal, hlen2]
    by_cases hab : a < b
    · rw [if_pos hab]
      simp only [true_iff]
      have h3 : (a + 1) * 256 ^ br.length ≤ b * 256 ^ br.length :=
        Nat.mul_le_mul_right _ hab
      have h4 : (a + 1) * 256 ^ br.length = a * 256 ^ br.length + 256 ^ br.length := by ring
      rw [hlen2] at hvar
      omega
    · rw [if_neg hab]
      by_cases hba : b < a
      · rw [if_pos hba]
        simp only [Bool.false_eq_true, false_iff, not_lt]
        have h3 : (b + 1) * 256 ^ br.length ≤ a * 256 ^ br.length :=
          Nat.mul_le_mul_right _ hba
        have h4 : (b + 1) * 256 ^ br.length = b * 256 ^ br.length + 256 ^ br.length := by ring
        omega
      · rw [if_neg hba]
        have hab2 : a = b := by omega
        subst hab2
        rw [ih br harOK hbrOK hlen2]
        omega

theorem aligned_add_le {N e M : Nat} (he : 0 < e) (hdvd : e ∣ M) (hN : N < M)
    (halign : N % e = 0) : N + e ≤ M := by
  obtain ⟨a, ha⟩ := Nat.dvd_of_mod_eq_zero halign
  obtain ⟨c, hc⟩ := hdvd
  have hac : a < c := by
    by_contra hcb
    push_neg at hcb
    have := Nat.mul_le_mul_left e hcb
    omega
  have hs := Nat.mul_le_mul_left e (show a + 1 ≤ c by omega)
  have hmul : e * (a + 1) = N + e := by rw [ha]; ring
  omega

theorem maskBytes_length : ∀ (L p : Nat), (maskBytes L p).length = L := by
  intro L
  induction L with
  | zero => intro p; rfl
  | succ L ih => intro p; simp [maskBytes, ih]

theorem bytesOfNat_take : ∀ (L j v : Nat), j ≤ L →
    (bytesOfNat L v).take j = bytesOfNat j (v / 256 ^ (L - j)) := by
  intro L
  induction L with
  | zero =>
    intro j v hj
    have hj0 : j = 0 := by omega
    subst hj0
    rfl
  | succ L ih =>
    intro j v hj
    cases j with
    | zero => rfl
    | succ j =>
      show (v / 256 ^ L :: bytesOfNat L (v % 256 ^ L)).take (j + 1)
          = bytesOfNat (j + 1) (v / 256 ^ (L + 1 - (j + 1)))
      rw [List.take_succ_cons]
      rw [ih j _ (by omega)]
      have hLj : L + 1 - (j + 1) = L - j := by omega
      rw [hLj]
      have hsplit : (256:Nat) ^ L = 256 ^ (L - j) * 256 ^ j := by
        rw [← pow_add]
        congr 1
        omega
      show v / 256 ^ L :: bytesOfNat j (v % 256 ^ L / 256 ^ (L - j))
          = v / 256 ^ (L - j) / 256 ^ j :: bytesOfNat j (v / 256 ^ (L - j) % 256 ^ j)
      congr 1
      · rw [hsplit, ← Nat.div_div_eq_div_mul]
      · congr 1
        rw [hsplit, Nat.mod_mul_right_div_self]

theorem bytesOfNat_drop : ∀ (L j v : Nat), j ≤ L → v < 256 ^ L →
    (bytesOfNat L v).drop j = bytesOfNat (L - j) (v % 256 ^ (L - j)) := by
  intro L
  induction L with
  | zero =>
    intro j v hj _
    have hj0 : j = 0 := by omega
    subst hj0
    rfl
  | succ L ih =>
    intro j v hj hv
    cases j with
    | zero =>
      show bytesOfNat (L + 1) v = bytesOfNat (L + 1 - 0) (v % 256 ^ (L + 1 - 0))
      rw [Nat.sub_zero, Nat.mod_eq_of_lt hv]
    | succ j =>
      show (bytesOfNat L (v % 256 ^ L)).drop j
          = bytesOfNat (L + 1 - (j + 1)) (v % 256 ^ (L + 1 - (j + 1)))
      have hLj : L + 1 - (j + 1) = L - j := by omega
      rw [hLj]
      rw [ih j _ (by omega) (Nat.mod_lt _ (Nat.pos_pow_of_pos _ (by norm_num)))]
      congr 1
      exact Nat.mod_mod_of_dvd v (pow_dvd_pow 256 (by omega))

theorem take12_v4Pfx_iff {v : Nat} (hv : v < 2 ^ 128) :
    (bytesOfNat 16 v).take 12 = v4InV6Prefix ↔ inV4Range v := by
  rw [bytesOfNat_take 16 12 v (by norm_num)]
  have hx : (256:Nat) ^ (16 - 12) = 2 ^ 32 := by norm_num
  rw [hx]
  have hlt : v / 2 ^ 32 < 256 ^ 12 := by
    have h2 : (256:Nat) ^ 12 = 2 ^ 96 := by norm_num
    omega
  constructor
  · intro h
    have hbe := congrArg beVal h
    rw [beVal_bytesOfNat hlt] at hbe
    have hp : beVal v4InV6Prefix = 65535 := by decide
    rw [hp] at hbe
    exact ⟨by omega, by omega⟩
  · intro h
    obtain ⟨h1, h2⟩ : 2 ^ 48 - 2 ^ 32 ≤ v ∧ v < 2 ^ 48 := h
    have hdiv : v / 2 ^ 32 = 65535 := by omega
    rw [hdiv]
    decide

set_option maxRecDepth 4000 in
theorem maskBytes_drop12 : ∀ p < 129, 96 ≤ p →
    (maskBytes 16 p).drop 12 = maskBytes 4 (p - 96) := by decide

/-! ### The parsed subnet and the host iterator (pkg/network) -/

/-- The `*net.IPNet` produced by `net.ParseCIDR` for a valid CIDR string:
address length in bytes, prefix length, and the network address bytes.
`ParseCIDR` stores `ip.Mask(mask)`, i.e. the network address with all host
bits zeroed, and a canonical mask of `pfx` leading one bits. -/
structure IPNetM where
  addrLen : Nat
  pfx : Nat
  netBytes : List Nat

/-- Well-formedness guaranteed by `net.ParseCIDR` for every valid CIDR string:
a 4-byte or 16-byte address, a prefix length within the address width, byte
values in range, and host bits of the network address zeroed. -/
def IPNetM.Valid (s : IPNetM) : Prop :=
  (s.addrLen = 4 ∨ s.addrLen = 16) ∧
  s.netBytes.length = s.addrLen ∧
  bytesOK s.netBytes ∧
  s.pfx ≤ 8 * s.addrLen ∧
  beVal s.netBytes % 2 ^ (8 * s.addrLen - s.pfx) = 0

instance (s : IPNetM) : Decidable s.Valid := by
  unfold IPNetM.Valid; infer_instance

/-- The subnet mask stored in the `net.IPNet` (`net.CIDRMask(pfx, 8*addrLen)`). -/
def IPNetM.mask (s : IPNetM) : List Nat := maskBytes s.addrLen s.pfx

/-- Number of host bits of the subnet. -/
def IPNetM.hostBits (s : IPNetM) : Nat := 8 * s.addrLen - s.pfx

/-- Numeric value of the network address. -/
def IPNetM.netVal (s : IPNetM) : Nat := beVal s.netBytes

/-- `GetFirstIPAddressFromIPNet`: a fresh copy of the network address bytes
(value-wise the network address itself). -/
def GetFirstIPAddressFromIPNet (s : IPNetM) : List Nat := s.netBytes

/-- `GetLastIPAddressFromIPNet`: copy the network address, then OR every byte
with the complement of the corresponding mask byte. -/
def GetLastIPAddressFromIPNet (s : IPNetM) : List Nat :=
  lastBytes s.netBytes s.mask

/-- `CalculateTotalHosts`: `prefixLength, totalBits := ipNet.Mask.Size()`,
`hostBits := totalBits - prefixLength`, and
`totalHosts := int(math.Pow(2, float64(hostBits)))`.  Powers of two up to
`2^128` are exactly representable in float64, so `math.Pow(2, hostBits)` is
exactly `2^hostBits`; Go's float-to-int conversion yields that value whenever
it fits into the 64-bit `int`, i.e. when `hostBits ≤ 62`, and an
implementation-defined value otherwise (the Go spec leaves out-of-range
conversions implementation-specific; no int64 can equal `2^hostBits` then).
The implementation-defined case is modelled as `none`. -/
def CalculateTotalHosts (s : IPNetM) : Option Int :=
  if 8 * s.addrLen - s.pfx ≤ 62 then some ((2 : Int) ^ (8 * s.addrLen - s.pfx)) else none

/-- The iterator state of `SubnetHostsIterator`: the subnet, the current
position (`nil` before the first call to `Next`), the precomputed first and
last addresses and the total host count. -/
structure SubnetHostsIterator where
  ipNet : IPNetM
  currentIP : Option (List Nat)
  firstIP : List Nat
  lastIP : List Nat
  totalHosts : Option Int

/-- `NewSubnetHostsIterator`. -/
def NewSubnetHostsIterator (s : IPNetM) : SubnetHostsIterator :=
  { ipNet := s
    currentIP := none
    firstIP := GetFirstIPAddressFromIPNet s
    lastIP := GetLastIPAddressFromIPNet s
    totalHosts := CalculateTotalHosts s }

/-- One call to `SubnetHostsIterator.Next`.  On the first call the network
address is copied into the cursor buffer and returned.  On every later call
the cursor buffer is incremented in place (the byte-wise carry loop) and the
new value is returned if the subnet still contains it, `nil` otherwise; the
buffer keeps the incremented value in both cases. -/
def SubnetHostsIterator.next (it : SubnetHostsIterator) :
    SubnetHostsIterator × Option (List Nat) :=
  match it.currentIP with
  | none => ({ it with currentIP := some it.firstIP }, some it.firstIP)
  | some cur =>
    ({ it with currentIP := some (incBE cur).1 },
      if ipnetContains it.ipNet.netBytes it.ipNet.mask (incBE cur).1 then
        some (incBE cur).1
      else none)

/-- Iterator state after `k` calls to `Next` on a fresh iterator. -/
def iterAfter (s : IPNetM) : Nat → SubnetHostsIterator
  | 0 => NewSubnetHostsIterator s
  | k + 1 => ((iterAfter s k).next).1

/-- Value returned by the `(k+1)`-st call to `Next` on a fresh iterator
(0-indexed: `emitAt s 0` is the first returned address). -/
def emitAt (s : IPNetM) (k : Nat) : Option (List Nat) := ((iterAfter s k).next).2

/-- Byte string of the `k`-th position of the cursor, as a numeric value mod
the address width. -/
def addrOf (s : IPNetM) (k : Nat) : List Nat :=
  bytesOfNat s.addrLen ((s.netVal + k) % 2 ^ (8 * s.addrLen))

theorem next_fields (it : SubnetHostsIterator) :
    it.next.1.ipNet = it.ipNet ∧ it.next.1.firstIP = it.firstIP ∧
    it.next.1.lastIP = it.lastIP ∧ it.next.1.totalHosts = it.totalHosts := by
  obtain ⟨net, cur, f, l, t⟩ := it
  cases cur
  · exact ⟨rfl, rfl, rfl, rfl⟩
  · exact ⟨rfl, rfl, rfl, rfl⟩

theorem iterAfter_fields (s : IPNetM) (k : Nat) :
    (iterAfter s k).ipNet = s ∧ (iterAfter s k).firstIP = s.netBytes := by
  induction k with
  | zero => exact ⟨rfl, rfl⟩
  | succ k ih =>
    have hf := next_fields (iterAfter s k)
    exact ⟨hf.1.trans ih.1, hf.2.1.trans ih.2⟩

theorem netVal_lt (s : IPNetM) (hs : s.Valid) : s.netVal < 2 ^ (8 * s.addrLen) := by
  have := beVal_lt hs.2.2.1
  rw [hs.2.1, pow256] at this
  exact this

theorem addrOf_netBytes (s : IPNetM) (hs : s.Valid) : addrOf s 0 = s.netBytes := by
  unfold addrOf
  rw [Nat.add_zero, Nat.mod_eq_of_lt (netVal_lt s hs)]
  have h1 : s.netVal = beVal s.netBytes := rfl
  rw [h1]
  have h2 := bytesOfNat_beVal hs.2.2.1
  rw [hs.2.1] at h2
  exact h2

theorem next_some {it : SubnetHostsIterator} {cur : List Nat}
    (h : it.currentIP = some cur) :
    it.next = ({ it with currentIP := some (incBE cur).1 },
      if ipnetContains it.ipNet.netBytes it.ipNet.mask (incBE cur).1 then
        some (incBE cur).1
      else none) := by
  obtain ⟨net, c, f, l, t⟩ := it
  cases c with
  | none => exact absurd h (by simp)
  | some v =>
    have hv : v = cur := by simpa using h
    subst hv
    rfl

theorem incBE_addrOf (s : IPNetM) (k : Nat) :
    (incBE (addrOf s k)).1 = addrOf s (k + 1) := by
  unfold addrOf
  have hM : (256 : Nat) ^ s.addrLen = 2 ^ (8 * s.addrLen) := pow256 _
  have hW : 0 < 2 ^ (8 * s.addrLen) := Nat.pos_pow_of_pos _ (by norm_num)
  have hlt : (s.netVal + k) % 2 ^ (8 * s.addrLen) < 256 ^ s.addrLen := by
    rw [hM]; exact Nat.mod_lt _ hW
  rw [incBE_bytesOfNat hlt, hM, Nat.mod_add_mod, Nat.add_assoc]

theorem iterAfter_currentIP (s : IPNetM) (hs : s.Valid) :
    ∀ k : Nat, (iterAfter s (k + 1)).currentIP = some (addrOf s k) := by
  intro k
  induction k with
  | zero =>
    show ((iterAfter s 0).next).1.currentIP = some (addrOf s 0)
    rw [addrOf_netBytes s hs]
    rfl
  | succ k ih =>
    show ((iterAfter s (k + 1)).next).1.currentIP = some (addrOf s (k + 1))
    rw [next_some ih]
    show some (incBE (addrOf s k)).1 = some (addrOf s (k + 1))
    rw [incBE_addrOf s k]

theorem emitAt_zero (s : IPNetM) : emitAt s 0 = some s.netBytes := rfl

theorem emitAt_succ_eq (s : IPNetM) (hs : s.Valid) (k : Nat) :
    emitAt s (k + 1) =
      (if ipnetContains s.netBytes s.mask (addrOf s (k + 1)) then some (addrOf s (k + 1))
       else none) := by
  unfold emitAt
  rw [next_some (iterAfter_currentIP s hs k)]
  show (if ipnetContains (iterAfter s (k + 1)).ipNet.netBytes
      (iterAfter s (k + 1)).ipNet.mask (incBE (addrOf s k)).1 then
      some (incBE (addrOf s k)).1 else none) = _
  rw [(iterAfter_fields s (k + 1)).1, incBE_addrOf s k]

theorem containsLoop_val (s : IPNetM) (hs : s.Valid) (v : Nat)
    (hv : v < 2 ^ (8 * s.addrLen)) :
    containsLoop s.netBytes s.mask (bytesOfNat s.addrLen v) = true ↔
      s.netVal ≤ v ∧ v < s.netVal + 2 ^ s.hostBits := by
  have hv256 : v < 256 ^ s.addrLen := by rw [pow256]; exact hv
  have hlen : (bytesOfNat s.addrLen v).length = s.netBytes.length := by
    rw [bytesOfNat_length, hs.2.1]
  have h := containsLoop_iff s.netBytes (bytesOfNat s.addrLen v) hs.2.2.1
    (bytesOfNat_ok hv256) hlen s.pfx (by rw [hs.2.1]; exact hs.2.2.2.1)
    (by rw [hs.2.1]; exact hs.2.2.2.2)
  rw [hs.2.1] at h
  rw [beVal_bytesOfNat hv256] at h
  show containsLoop s.netBytes (maskBytes s.addrLen s.pfx) (bytesOfNat s.addrLen v) = true ↔
    beVal s.netBytes ≤ v ∧ v < beVal s.netBytes + 2 ^ (8 * s.addrLen - s.pfx)
  exact h

theorem netBytes_eq (s : IPNetM) (hs : s.Valid) :
    s.netBytes = bytesOfNat s.addrLen s.netVal := by
  have h := bytesOfNat_beVal hs.2.2.1
  rw [hs.2.1] at h
  exact h.symm

/-- Full characterization of `net.IPNet.Contains` on the subnets produced by
`ParseCIDR` and probes of the subnet's own address width: the probe value must
lie in the subnet's block, and (for 16-byte subnets whose network address is
not itself IPv4-mapped) the probe must not be an IPv4-mapped address, since
`To4` reduces such a probe to 4 bytes and the length check then fails. -/
theorem ipnetContains_val (s : IPNetM) (hs : s.Valid) (v : Nat)
    (hv : v < 2 ^ (8 * s.addrLen)) :
    ipnetContains s.netBytes s.mask (bytesOfNat s.addrLen v) = true ↔
      (s.netVal ≤ v ∧ v < s.netVal + 2 ^ s.hostBits ∧
        (s.addrLen = 16 → inV4Range s.netVal ∨ ¬ inV4Range v)) := by
  have hnetLen : s.netBytes.length = s.addrLen := hs.2.1
  have hmaskLen : s.mask.length = s.addrLen := maskBytes_length s.addrLen s.pfx
  rcases hs.1 with h4 | h16
  · -- IPv4 subnet: To4 is the identity on the 4-byte network and probe
    have hto4net : to4 s.netBytes = some s.netBytes := by
      unfold to4
      rw [hnetLen, h4]
      rfl
    have hnm : netNumberAndMask s.netBytes s.mask = (s.netBytes, s.mask) := by
      simp only [netNumberAndMask, hto4net]
      rw [hmaskLen, h4]
      rfl
    have hto4probe : to4 (bytesOfNat s.addrLen v) = some (bytesOfNat s.addrLen v) := by
      unfold to4
      rw [bytesOfNat_length, h4]
      rfl
    have heq : ipnetContains s.netBytes s.mask (bytesOfNat s.addrLen v)
        = containsLoop s.netBytes s.mask (bytesOfNat s.addrLen v) := by
      simp only [ipnetContains, hnm, hto4probe]
      rw [bytesOfNat_length, hnetLen]
      simp
    rw [heq, containsLoop_val s hs v hv]
    constructor
    · rintro ⟨h1, h2⟩
      exact ⟨h1, h2, fun h16 => absurd (h4.symm.trans h16) (by norm_num)⟩
    · rintro ⟨h1, h2, _⟩
      exact ⟨h1, h2⟩
  · -- IPv6 subnet
    have h816 : (8:Nat) * 16 = 128 := by norm_num
    have hv128 : v < 2 ^ 128 := by rw [h16, h816] at hv; exact hv
    have hN128 : s.netVal < 2 ^ 128 := by
      have := netVal_lt s hs
      rw [h16, h816] at this
      exact this
    have hv256 : v < 256 ^ 16 := by
      have h2 : (256:Nat) ^ 16 = 2 ^ 128 := by norm_num
      omega
    have hN256 : s.netVal < 256 ^ 16 := by
      have h2 : (256:Nat) ^ 16 = 2 ^ 128 := by norm_num
      omega
    have h2564 : (256:Nat) ^ 4 = 2 ^ 32 := by norm_num
    have hnb : s.netBytes = bytesOfNat 16 s.netVal := by
      have := netBytes_eq s hs
      rwa [h16] at this
    by_cases hmapN : inV4Range s.netVal
    · -- the network address is itself IPv4-mapped (prefix ≥ 96 inside ::ffff:0:0/96)
      have hmapN2 : 2 ^ 48 - 2 ^ 32 ≤ s.netVal ∧ s.netVal < 2 ^ 48 := hmapN
      obtain ⟨hge, hlt48⟩ := hmapN2
      have hdvdN : (2:Nat) ^ s.hostBits ∣ s.netVal := Nat.dvd_of_mod_eq_zero hs.2.2.2.2
      have hNpos : 0 < s.netVal := by omega
      have hleN : 2 ^ s.hostBits ≤ s.netVal := Nat.le_of_dvd hNpos hdvdN
      have h48 : s.hostBits < 48 := by
        have h1 : (2:Nat) ^ s.hostBits < 2 ^ 48 := by omega
        exact (Nat.pow_lt_pow_iff_right (by norm_num)).mp h1
      have hdvd48 : (2:Nat) ^ s.hostBits ∣ 2 ^ 48 := pow_dvd_pow 2 (by omega)
      have hdvdD : (2:Nat) ^ s.hostBits ∣ (2 ^ 48 - s.netVal) := Nat.dvd_sub' hdvd48 hdvdN
      have hleD : 2 ^ s.hostBits ≤ 2 ^ 48 - s.netVal := Nat.le_of_dvd (by omega) hdvdD
      have hblock48 : s.netVal + 2 ^ s.hostBits ≤ 2 ^ 48 := by omega
      have hh32 : s.hostBits ≤ 32 := by
        have h1 : (2:Nat) ^ s.hostBits ≤ 2 ^ 32 := by omega
        exact (Nat.pow_le_pow_iff_right (by norm_num)).mp h1
      have hpfxle : s.pfx ≤ 128 := by
        have := hs.2.2.2.1
        rw [h16, h816] at this
        exact this
      have hp96 : 96 ≤ s.pfx := by
        have hhb : s.hostBits = 8 * s.addrLen - s.pfx := rfl
        rw [h16, h816] at hhb
        omega
      have hexp : 8 * 4 - (s.pfx - 96) = s.hostBits := by
        have hhb : s.hostBits = 8 * s.addrLen - s.pfx := rfl
        rw [h16, h816] at hhb
        omega
      have hmaskdrop : s.mask.drop 12 = maskBytes 4 (s.pfx - 96) := by
        show (maskBytes s.addrLen s.pfx).drop 12 = maskBytes 4 (s.pfx - 96)
        rw [h16]
        exact maskBytes_drop12 s.pfx (by omega) hp96
      have htakeN : (bytesOfNat 16 s.netVal).take 12 = v4InV6Prefix :=
        (take12_v4Pfx_iff hN128).mpr hmapN
      have hto4net : to4 s.netBytes = some (bytesOfNat 4 (s.netVal % 2 ^ 32)) := by
        rw [hnb]
        unfold to4
        rw [bytesOfNat_length]
        rw [bytesOfNat_drop 16 12 s.netVal (by norm_num) hN256]
        simp [htakeN, h2564]
      have hnm : netNumberAndMask s.netBytes s.mask
          = (bytesOfNat 4 (s.netVal % 2 ^ 32), maskBytes 4 (s.pfx - 96)) := by
        simp only [netNumberAndMask, hto4net]
        rw [hmaskLen, h16]
        simp [hmaskdrop]
      have hNl256 : s.netVal % 2 ^ 32 < 256 ^ 4 := by
        rw [h2564]
        exact Nat.mod_lt _ (by norm_num)
      have hN32 := Nat.div_add_mod s.netVal (2 ^ 32)
      have hdN : s.netVal / 2 ^ 32 = 65535 := by omega
      rw [hdN] at hN32
      by_cases hmapv : inV4Range v
      · -- IPv4-mapped probe against an IPv4-mapped network: compared as 4 bytes
        have hmapv2 : 2 ^ 48 - 2 ^ 32 ≤ v ∧ v < 2 ^ 48 := hmapv
        obtain ⟨hgev, hltv48⟩ := hmapv2
        have htakev : (bytesOfNat 16 v).take 12 = v4InV6Prefix :=
          (take12_v4Pfx_iff hv128).mpr hmapv
        have hto4v : to4 (bytesOfNat s.addrLen v) = some (bytesOfNat 4 (v % 2 ^ 32)) := by
          rw [h16]
          unfold to4
          rw [bytesOfNat_length]
          rw [bytesOfNat_drop 16 12 v (by norm_num) hv256]
          simp [htakev, h2564]
        have heq : ipnetContains s.netBytes s.mask (bytesOfNat s.addrLen v)
            = containsLoop (bytesOfNat 4 (s.netVal % 2 ^ 32)) (maskBytes 4 (s.pfx - 96))
                (bytesOfNat 4 (v % 2 ^ 32)) := by
          simp only [ipnetContains, hnm, hto4v]
          rw [bytesOfNat_length, bytesOfNat_length]
          simp
        have hvl256 : v % 2 ^ 32 < 256 ^ 4 := by
          rw [h2564]
          exact Nat.mod_lt _ (by norm_num)
        have hlen4 : (bytesOfNat 4 (v % 2 ^ 32)).length
            = (bytesOfNat 4 (s.netVal % 2 ^ 32)).length := by
          rw [bytesOfNat_length, bytesOfNat_length]
        have halign4 : beVal (bytesOfNat 4 (s.netVal % 2 ^ 32))
            % 2 ^ (8 * (bytesOfNat 4 (s.netVal % 2 ^ 32)).length - (s.pfx - 96)) = 0 := by
          rw [beVal_bytesOfNat hNl256, bytesOfNat_length, hexp]
          rw [Nat.mod_mod_of_dvd s.netVal (pow_dvd_pow 2 hh32)]
          exact hs.2.2.2.2
        have hloop := containsLoop_iff (bytesOfNat 4 (s.netVal % 2 ^ 32))
          (bytesOfNat 4 (v % 2 ^ 32)) (bytesOfNat_ok hNl256) (bytesOfNat_ok hvl256)
          hlen4 (s.pfx - 96) (by rw [bytesOfNat_length]; omega) halign4
        rw [beVal_bytesOfNat hNl256, beVal_bytesOfNat hvl256, bytesOfNat_length,
          hexp] at hloop
        rw [heq, hloop]
        have hv32 := Nat.div_add_mod v (2 ^ 32)
        have hdv : v / 2 ^ 32 = 65535 := by omega
        rw [hdv] at hv32
        constructor
        · rintro ⟨h1, h2⟩
          exact ⟨by omega, by omega, fun _ => Or.inl hmapN⟩
        · rintro ⟨h1, h2, _⟩
          exact ⟨by omega, by omega⟩
      · -- a non-mapped probe can never lie in a block contained in ::ffff:0:0/96
        have htakev : (bytesOfNat 16 v).take 12 ≠ v4InV6Prefix :=
          fun h => hmapv ((take12_v4Pfx_iff hv128).mp h)
        have hto4v : to4 (bytesOfNat s.addrLen v) = none := by
          rw [h16]
          unfold to4
          rw [bytesOfNat_length]
          simp [htakev]
        have hfalse : ipnetContains s.netBytes s.mask (bytesOfNat s.addrLen v) = false := by
          simp only [ipnetContains, hnm, hto4v]
          rw [bytesOfNat_length, bytesOfNat_length, h16]
          rfl
        rw [hfalse]
        simp only [Bool.false_eq_true, false_iff]
        rintro ⟨h1, h2, _⟩
        exact hmapv (show 2 ^ 48 - 2 ^ 32 ≤ v ∧ v < 2 ^ 48 from ⟨by omega, by omega⟩)
    · -- the network address is not IPv4-mapped
      have htakeN : (bytesOfNat 16 s.netVal).take 12 ≠ v4InV6Prefix :=
        fun h => hmapN ((take12_v4Pfx_iff hN128).mp h)
      have hto4net : to4 s.netBytes = none := by
        rw [hnb]
        unfold to4
        rw [bytesOfNat_length]
        simp [htakeN]
      have hnm : netNumberAndMask s.netBytes s.mask = (s.netBytes, s.mask) := by
        simp only [netNumberAndMask, hto4net]
        rw [hnetLen, hmaskLen, h16]
        rfl
      by_cases hmapv : inV4Range v
      · -- IPv4-mapped probe: To4 cuts it to 4 bytes, the length check fails
        have htakev : (bytesOfNat 16 v).take 12 = v4InV6Prefix :=
          (take12_v4Pfx_iff hv128).mpr hmapv
        have hto4v : to4 (bytesOfNat s.addrLen v) = some ((bytesOfNat 16 v).drop 12) := by
          rw [h16]
          unfold to4
          rw [bytesOfNat_length]
          simp [htakev]
        have hfalse : ipnetContains s.netBytes s.mask (bytesOfNat s.addrLen v) = false := by
          simp only [ipnetContains, hnm, hto4v]
          rw [List.length_drop, bytesOfNat_length, hnetLen, h16]
          rfl
        rw [hfalse]
        simp only [Bool.false_eq_true, false_iff]
        rintro ⟨h1, h2, h3⟩
        rcases h3 h16 with hx | hx
        · exact hmapN hx
        · exact hx hmapv
      · -- non-mapped probe: the ordinary masked comparison decides membership
        have htakev : (bytesOfNat 16 v).take 12 ≠ v4InV6Prefix :=
          fun h => hmapv ((take12_v4Pfx_iff hv128).mp h)
        have hto4v : to4 (bytesOfNat s.addrLen v) = none := by
          rw [h16]
          unfold to4
          rw [bytesOfNat_length]
          simp [htakev]
        have heq : ipnetContains s.netBytes s.mask (bytesOfNat s.addrLen v)
            = containsLoop s.netBytes s.mask (bytesOfNat s.addrLen v) := by
          simp only [ipnetContains, hnm, hto4v]
          rw [bytesOfNat_length, hnetLen]
          simp
        rw [heq, containsLoop_val s hs v hv]
        constructor
        · rintro ⟨h1, h2⟩
          exact ⟨h1, h2, fun _ => Or.inr hmapv⟩
        · rintro ⟨h1, h2, _⟩
          exact ⟨h1, h2⟩

/-- Subnets on which the `To4` normalization inside `Contains` never cuts the
enumeration short: IPv4 subnets, subnets whose network address is itself
IPv4-mapped (the whole block then reduces consistently to 4 bytes), and
subnets whose block is disjoint from the IPv4-mapped range `::ffff:0:0/96`. -/
def MappedSafe (s : IPNetM) : Prop :=
  s.addrLen = 4 ∨ inV4Range s.netVal ∨
    2 ^ 48 ≤ s.netVal ∨ s.netVal + 2 ^ s.hostBits ≤ 2 ^ 48 - 2 ^ 32

instance (s : IPNetM) : Decidable (MappedSafe s) := by
  unfold MappedSafe; infer_instance

theorem mappedSafe_third (s : IPNetM) (hsafe : MappedSafe s) {v : Nat}
    (h1 : s.netVal ≤ v) (h2 : v < s.netVal + 2 ^ s.hostBits) :
    s.addrLen = 16 → inV4Range s.netVal ∨ ¬ inV4Range v := by
  intro h16
  rcases hsafe with h4 | hmap | hhi | hlo
  · rw [h4] at h16
    exact absurd h16 (by norm_num)
  · exact Or.inl hmap
  · refine Or.inr fun hv => ?_
    obtain ⟨_, hlt⟩ : 2 ^ 48 - 2 ^ 32 ≤ v ∧ v < 2 ^ 48 := hv
    omega
  · refine Or.inr fun hv => ?_
    obtain ⟨hge2, _⟩ : 2 ^ 48 - 2 ^ 32 ≤ v ∧ v < 2 ^ 48 := hv
    omega

theorem net_block_le (s : IPNetM) (hs : s.Valid) :
    s.netVal + 2 ^ s.hostBits ≤ 2 ^ (8 * s.addrLen) := by
  apply aligned_add_le (Nat.pos_pow_of_pos _ (by norm_num)) _ (netVal_lt s hs) hs.2.2.2.2
  exact pow_dvd_pow 2 (by omega)

theorem emitAt_of_lt (s : IPNetM) (hs : s.Valid) (hsafe : MappedSafe s) {k : Nat}
    (hk : k < 2 ^ s.hostBits) :
    emitAt s k = some (bytesOfNat s.addrLen (s.netVal + k)) := by
  have hblock := net_block_le s hs
  have hlt : s.netVal + k < 2 ^ (8 * s.addrLen) := by omega
  have haddr : addrOf s k = bytesOfNat s.addrLen (s.netVal + k) := by
    unfold addrOf
    rw [Nat.mod_eq_of_lt hlt]
  cases k with
  | zero =>
    rw [emitAt_zero]
    rw [← haddr, addrOf_netBytes s hs]
  | succ k =>
    rw [emitAt_succ_eq s hs k, haddr]
    rw [if_pos]
    rw [(ipnetContains_val s hs (s.netVal + (k + 1)) hlt)]
    exact ⟨by omega, by omega, mappedSafe_third s hsafe (by omega) (by omega)⟩

theorem emitAt_end_none (s : IPNetM) (hs : s.Valid) (hp : 1 ≤ s.pfx) :
    emitAt s (2 ^ s.hostBits) = none := by
  have hW : 8 * s.addrLen = 32 ∨ 8 * s.addrLen = 128 := by
    rcases hs.1 with h | h <;> [left; right] <;> rw [h]
  have hhW : s.hostBits < 8 * s.addrLen := by
    unfold IPNetM.hostBits
    omega
  have h2 : (2:Nat) ^ s.hostBits < 2 ^ (8 * s.addrLen) :=
    Nat.pow_lt_pow_right (by norm_num) hhW
  have hblock := net_block_le s hs
  have hpos : 0 < (2:Nat) ^ s.hostBits := Nat.pos_pow_of_pos _ (by norm_num)
  obtain ⟨m, hm⟩ : ∃ m, 2 ^ s.hostBits = m + 1 := ⟨2 ^ s.hostBits - 1, by omega⟩
  rw [hm, emitAt_succ_eq s hs m]
  rw [if_neg]
  intro hcon
  have hWpos : 0 < 2 ^ (8 * s.addrLen) := Nat.pos_pow_of_pos _ (by norm_num)
  have hmlt : (s.netVal + (m + 1)) % 2 ^ (8 * s.addrLen) < 2 ^ (8 * s.addrLen) :=
    Nat.mod_lt _ hWpos
  have hcv := (ipnetContains_val s hs ((s.netVal + (m + 1)) % 2 ^ (8 * s.addrLen)) hmlt).mp hcon
  replace hcv : s.netVal ≤ (s.netVal + (m + 1)) % 2 ^ (8 * s.addrLen) ∧
      (s.netVal + (m + 1)) % 2 ^ (8 * s.addrLen) < s.netVal + 2 ^ s.hostBits :=
    ⟨hcv.1, hcv.2.1⟩
  rcases Nat.lt_or_ge (s.netVal + (m + 1)) (2 ^ (8 * s.addrLen)) with hlt | hge
  · rw [Nat.mod_eq_of_lt hlt] at hcv
    omega
  · have heq : s.netVal + (m + 1) = 2 ^ (8 * s.addrLen) := by omega
    rw [heq, Nat.mod_self] at hcv
    omega

theorem emitAt_all_pfx0 (s : IPNetM) (hs : s.Valid) (h4 : s.addrLen = 4)
    (hp0 : s.pfx = 0) (k : Nat) :
    emitAt s k = some (addrOf s k) := by
  have hN0 : s.netVal = 0 := by
    have := hs.2.2.2.2
    rw [hp0] at this
    simp only [Nat.sub_zero] at this
    have hlt := netVal_lt s hs
    have := Nat.mod_eq_of_lt hlt ▸ this
    exact this
  have hWpos : 0 < 2 ^ (8 * s.addrLen) := Nat.pos_pow_of_pos _ (by norm_num)
  cases k with
  | zero => rw [emitAt_zero, addrOf_netBytes s hs]
  | succ k =>
    rw [emitAt_succ_eq s hs k]
    rw [if_pos]
    unfold addrOf
    rw [ipnetContains_val s hs _ (Nat.mod_lt _ hWpos)]
    have hh : s.hostBits = 8 * s.addrLen := by
      unfold IPNetM.hostBits
      omega
    refine ⟨by omega, ?_, fun h16 => absurd (h4.symm.trans h16) (by norm_num)⟩
    rw [hh, hN0]
    have := Nat.mod_lt (s.netVal + (k + 1)) hWpos
    omega

theorem emitAt_after_end_none (s : IPNetM) (hs : s.Valid) (hp : 1 ≤ s.pfx) :
    emitAt s (2 ^ s.hostBits + 1) = none := by
  have hW : 8 * s.addrLen = 32 ∨ 8 * s.addrLen = 128 := by
    rcases hs.1 with h | h <;> [left; right] <;> rw [h]
  have hhW : s.hostBits < 8 * s.addrLen := by
    unfold IPNetM.hostBits
    omega
  have hA1 : 1 ≤ (2:Nat) ^ s.hostBits := Nat.pos_pow_of_pos _ (by norm_num)
  have h2A : 2 ^ s.hostBits * 2 ≤ 2 ^ (8 * s.addrLen) := by
    rw [← pow_succ]
    exact Nat.pow_le_pow_right (by norm_num) (by omega)
  have hBge : (4:Nat) ≤ 2 ^ (8 * s.addrLen) := by
    calc (4:Nat) = 2 ^ 2 := by norm_num
      _ ≤ 2 ^ (8 * s.addrLen) := Nat.pow_le_pow_right (by norm_num) (by omega)
  have hblock := net_block_le s hs
  rw [emitAt_succ_eq s hs (2 ^ s.hostBits)]
  rw [if_neg]
  intro hcon
  have hWpos : 0 < 2 ^ (8 * s.addrLen) := by omega
  have hmlt : (s.netVal + (2 ^ s.hostBits + 1)) % 2 ^ (8 * s.addrLen)
      < 2 ^ (8 * s.addrLen) := Nat.mod_lt _ hWpos
  have hcv := (ipnetContains_val s hs _ hmlt).mp hcon
  replace hcv : s.netVal ≤ (s.netVal + (2 ^ s.hostBits + 1)) % 2 ^ (8 * s.addrLen) ∧
      (s.netVal + (2 ^ s.hostBits + 1)) % 2 ^ (8 * s.addrLen)
        < s.netVal + 2 ^ s.hostBits :=
    ⟨hcv.1, hcv.2.1⟩
  rcases Nat.lt_or_ge (s.netVal + (2 ^ s.hostBits + 1)) (2 ^ (8 * s.addrLen)) with hlt | hge
  · rw [Nat.mod_eq_of_lt hlt] at hcv
    omega
  · have hcase : s.netVal + 2 ^ s.hostBits = 2 ^ (8 * s.addrLen) ∨
        s.netVal + 2 ^ s.hostBits + 1 = 2 ^ (8 * s.addrLen) := by omega
    rcases hcase with heq | heq
    · have hv : (s.netVal + (2 ^ s.hostBits + 1)) % 2 ^ (8 * s.addrLen) = 1 := by
        have hx : s.netVal + (2 ^ s.hostBits + 1) = 2 ^ (8 * s.addrLen) + 1 := by omega
        rw [hx, Nat.add_mod_left]
        exact Nat.mod_eq_of_lt (by omega)
      rw [hv] at hcv
      omega
    · have hv : (s.netVal + (2 ^ s.hostBits + 1)) % 2 ^ (8 * s.addrLen) = 0 := by
        have hx : s.netVal + (2 ^ s.hostBits + 1) = 2 ^ (8 * s.addrLen) := by omega
        rw [hx, Nat.mod_self]
      rw [hv] at hcv
      omega

/-! ### The scan session (package subping) -/

/-- `ping.Result` of internal/ping: average RTT (a `time.Duration`, i.e. a
count of nanoseconds), packet-loss percentage (a float64, modelled as an exact
rational), and the three packet counters. -/
structure ResultM where
  avgRtt : Int
  packetLoss : Rat
  packetsSent : Int
  packetsRecv : Int
  packetsRecvDuplicates : Int
deriving DecidableEq

/-- The zero value `ping.Result{}` a worker substitutes on probe error. -/
def zeroResult : ResultM := ⟨0, 0, 0, 0, 0⟩

/-- One probe (the `Pinger.Ping` capability) applied to a target address.  The
worker keys everything by `ip.String()`; for a fixed address length the byte
string and its canonical text form are in bijection, so the model keys by the
address bytes. -/
abbrev PingFn := List Nat → Except String ResultM

/-- The per-target body of `Subping.startWorker`: on a probe error the worker
logs and stores the zero `ping.Result{}`; otherwise it stores the returned
result.  In both cases the target's key is written exactly once. -/
def workerResult (ping : PingFn) (a : List Nat) : ResultM :=
  match ping a with
  | .ok r => r
  | .error _ => zeroResult

/-- The producer loop of `Subping.Run`:
`for ip := it.Next(); ip != nil; ip = it.Next()` — call `Next`, stop at the
first `nil`, otherwise enqueue the address and repeat.  `fuel` bounds the
number of `Next` calls so the function is total; the theorems below always
supply enough fuel for the loop to reach its `nil`. -/
def produceFrom (st : SubnetHostsIterator) : Nat → SubnetHostsIterator × List (List Nat)
  | 0 => (st, [])
  | fuel + 1 =>
    match st.next with
    | (st2, none) => (st2, [])
    | (st2, some a) => ((produceFrom st2 fuel).1, a :: (produceFrom st2 fuel).2)

/-- The producer loop enqueues exactly the first `K` emissions when the
iterator emits the consecutive subnet addresses at indices `0..K-1` and
returns nil at index `K` (at which point the loop stops for good). -/
theorem produceFrom_upTo (s : IPNetM) (K : Nat)
    (hemitlt : ∀ k, k < K → emitAt s k = some (bytesOfNat s.addrLen (s.netVal + k)))
    (hend : emitAt s K = none) :
    ∀ fuel j, j ≤ K → K - j < fuel →
    produceFrom (iterAfter s j) fuel
      = (iterAfter s (K + 1),
         (List.range (K - j)).map
           (fun i => bytesOfNat s.addrLen (s.netVal + (j + i)))) := by
  intro fuel
  induction fuel with
  | zero => intro j hj hcnt; omega
  | succ fuel ih =>
    intro j hj hcnt
    have hnext : (iterAfter s j).next = (iterAfter s (j + 1), emitAt s j) := rfl
    rcases Nat.lt_or_ge j K with hlt | hge
    · have hemit : emitAt s j = some (bytesOfNat s.addrLen (s.netVal + j)) :=
        hemitlt j hlt
      show produceFrom (iterAfter s j) (fuel + 1) = _
      rw [produceFrom, hnext, hemit]
      have hih := ih (j + 1) (by omega) (by omega)
      have hrange : (List.range (K - j)).map
          (fun i => bytesOfNat s.addrLen (s.netVal + (j + i)))
          = bytesOfNat s.addrLen (s.netVal + j)
            :: (List.range (K - (j + 1))).map
              (fun i => bytesOfNat s.addrLen (s.netVal + (j + 1 + i))) := by
        have hn : K - j = (K - (j + 1)) + 1 := by omega
        rw [hn, List.range_succ_eq_map, List.map_cons, List.map_map]
        refine congrArg₂ List.cons ?_ ?_
        · norm_num
        · apply List.map_congr_left
          intro i _
          simp only [Function.comp_apply]
          congr 1
          omega
      show ((produceFrom (iterAfter s (j + 1)) fuel).1,
        bytesOfNat s.addrLen (s.netVal + j) :: (produceFrom (iterAfter s (j + 1)) fuel).2) = _
      rw [hih, hrange]
    · have hje : j = K := by omega
      have hendj : emitAt s j = none := by rw [hje]; exact hend
      show produceFrom (iterAfter s j) (fuel + 1) = _
      rw [produceFrom, hnext, hendj]
      show (iterAfter s (j + 1), ([] : List (List Nat))) = _
      rw [hje]
      simp

theorem produceFrom_spec (s : IPNetM) (hs : s.Valid) (hp : 1 ≤ s.pfx)
    (hsafe : MappedSafe s) (fuel : Nat) (hfuel : 2 ^ s.hostBits < fuel) :
    produceFrom (NewSubnetHostsIterator s) fuel
      = (iterAfter s (2 ^ s.hostBits + 1),
         (List.range (2 ^ s.hostBits)).map
           (fun i => bytesOfNat s.addrLen (s.netVal + i))) := by
  have h := produceFrom_upTo s (2 ^ s.hostBits)
    (fun k hk => emitAt_of_lt s hs hsafe hk) (emitAt_end_none s hs hp)
    fuel 0 (Nat.zero_le _)
    (show 2 ^ s.hostBits - 0 < fuel by rwa [Nat.sub_zero])
  have h0 : iterAfter s 0 = NewSubnetHostsIterator s := rfl
  rw [h0] at h
  rw [h]
  simp

theorem produceFrom_after_end (s : IPNetM) (hs : s.Valid) (hp : 1 ≤ s.pfx)
    (fuel : Nat) (hf : 1 ≤ fuel) :
    produceFrom (iterAfter s (2 ^ s.hostBits + 1)) fuel
      = ((iterAfter s (2 ^ s.hostBits + 1)).next.1, []) := by
  obtain ⟨f2, rfl⟩ : ∃ f2, fuel = f2 + 1 := ⟨fuel - 1, by omega⟩
  have hnext : (iterAfter s (2 ^ s.hostBits + 1)).next
      = (iterAfter s (2 ^ s.hostBits + 1 + 1), emitAt s (2 ^ s.hostBits + 1)) := rfl
  have hnone := emitAt_after_end_none s hs hp
  rw [produceFrom, hnext, hnone]

/-- `calculateMaxPartitionSize` (package subping): integer division and
modulus with Go's truncation-toward-zero semantics (`Int.tdiv` / `Int.tmod`),
rounding up when a remainder is left, with the defensive negativity check. -/
def calculateMaxPartitionSize (dataSize numPartitions : Int) : Except String Int :=
  let q := dataSize.tdiv numPartitions
  let r := dataSize.tmod numPartitions
  let m := if r ≠ 0 then q + 1 else q
  if m < 0 then Except.error "the value exceeds the range of int"
  else Except.ok m

/-- Which concrete Pinger implementation a session holds. -/
inductive PingerKind where
  | real
  | mock
deriving DecidableEq

/-- The environment variables `isCIEnvironment` checks. -/
def ciVars : List String :=
  ["CI", "GITHUB_ACTIONS", "CONTINUOUS_INTEGRATION", "TRAVIS", "CIRCLECI",
   "JENKINS_URL", "GITLAB_CI", "APPVEYOR", "CI_NAME", "BUILDKITE", "SEMAPHORE"]

/-- `isCIEnvironment`: true iff any of the CI variables has a non-empty value
in the process environment (`os.Getenv`). -/
def isCIEnvironment (getenv : String → String) : Bool :=
  ciVars.any fun v => getenv v != ""

/-- `ping.NewPinger`: auto-detection — the mock pinger in a CI environment,
the real pinger otherwise. -/
def NewPinger (getenv : String → String) : PingerKind :=
  if isCIEnvironment getenv then PingerKind.mock else PingerKind.real

/-- The level names `logrus.ParseLevel` accepts (it lowercases its input). -/
def logrusLevels : List String :=
  ["panic", "fatal", "error", "warn", "warning", "info", "debug", "trace"]

/-- Go's `unicode.ToLower` (the simple case mapping applied per rune by
`strings.ToLower`), restricted to what can influence a comparison against the
ASCII level names: the only Unicode characters whose simple lowercase mapping
is an ASCII letter are the ASCII uppercase letters themselves plus U+0130
(`İ`, mapped to `i`) and U+212A (the Kelvin sign, mapped to `k`).  Every
other character is either mapped to itself by both Go and `Char.toLower`, or
mapped to distinct non-ASCII characters, which compare unequal to every
character of the ASCII level names either way. -/
def goToLowerChar (c : Char) : Char :=
  if c.val = 0x130 then 'i'
  else if c.val = 0x212A then 'k'
  else Char.toLower c

/-- Whether `logrus.ParseLevel` succeeds on the string: it lowercases the
input with `strings.ToLower` (Unicode simple case mapping per rune) and
switches on the level names. -/
def parseLevelOk (s : String) : Bool :=
  (logrusLevels.map String.data).contains (s.data.map goToLowerChar)

/-- `subping.Options`.  Durations are nanosecond counts (`time.Duration`). -/
structure OptionsM where
  logLevel : String
  subnet : String
  count : Int
  interval : Int
  timeout : Int
  maxWorkers : Int

/-- The `Subping` session state. -/
structure SubpingM where
  targetsIterator : SubnetHostsIterator
  count : Int
  interval : Int
  timeout : Int
  batchSize : Int
  results : List (List Nat × ResultM)
  totalResults : Int
  maxWorkers : Int
  pinger : PingerKind

/-- `NewSubping`.  The CIDR parsing is delegated to `net.ParseCIDR` (through
`network.NewSubnetHostsIteratorFromCIDRString`); `parsed` is that external
collaborator's answer for `opts.subnet` (`none` iff the string is
unparseable; the empty string never parses).  `totalHosts` is the iterator's
`TotalHosts` int field; it equals the value of `CalculateTotalHosts` whenever
that conversion is platform-independent (host bits ≤ 62).  `getenv` is the
process environment consulted by `ping.NewPinger()` on the success path. -/
def NewSubping (opts : OptionsM) (parsed : Option IPNetM) (totalHosts : Int)
    (getenv : String → String) : Except String SubpingM :=
  if opts.subnet = "" then
    Except.error "subnet should be in CIDR notation and cannot be empty"
  else if opts.count < 1 then Except.error "count should be more than zero (0)"
  else if opts.maxWorkers < 1 then
    Except.error "max workers should be more than zero (0)"
  else if opts.timeout < 0 then Except.error "timeout cannot be negative"
  else if opts.interval < 0 then Except.error "interval cannot be negative"
  else
    match parsed with
    | none => Except.error "failed to parse subnet"
    | some s =>
      match calculateMaxPartitionSize totalHosts opts.maxWorkers with
      | Except.error e => Except.error e
      | Except.ok batchLimit =>
        if parseLevelOk (if opts.logLevel = "" then "error" else opts.logLevel) then
          Except.ok
            { targetsIterator := NewSubnetHostsIterator s
              count := opts.count
              interval := opts.interval
              timeout := opts.timeout
              batchSize := batchLimit
              results := []
              totalResults := 0
              maxWorkers := opts.maxWorkers
              pinger := NewPinger getenv }
        else Except.error "failed to parse log level"

/-- `NewSubpingWithPinger`: identical validation pipeline, but the Pinger is
the caller's argument; the process environment is never consulted. -/
def NewSubpingWithPinger (opts : OptionsM) (parsed : Option IPNetM)
    (totalHosts : Int) (getenv : String → String) (pinger : PingerKind) :
    Except String SubpingM :=
  if opts.subnet = "" then
    Except.error "subnet should be in CIDR notation and cannot be empty"
  else if opts.count < 1 then Except.error "count should be more than zero (0)"
  else if opts.maxWorkers < 1 then
    Except.error "max workers should be more than zero (0)"
  else if opts.timeout < 0 then Except.error "timeout cannot be negative"
  else if opts.interval < 0 then Except.error "interval cannot be negative"
  else
    match parsed with
    | none => Except.error "failed to parse subnet"
    | some s =>
      match calculateMaxPartitionSize totalHosts opts.maxWorkers with
      | Except.error e => Except.error e
      | Except.ok batchLimit =>
        if parseLevelOk (if opts.logLevel = "" then "error" else opts.logLevel) then
          Except.ok
            { targetsIterator := NewSubnetHostsIterator s
              count := opts.count
              interval := opts.interval
              timeout := opts.timeout
              batchSize := batchLimit
              results := []
              totalResults := 0
              maxWorkers := opts.maxWorkers
              pinger := pinger }
        else Except.error "failed to parse log level"

/-- `Subping.Run`: spawn the workers, feed every address produced by the
iterator into the job channel (single producer loop, stopping at the first
`nil`), close the channel, wait for all workers, then rebuild `Results` as a
fresh map from the collected entries and set `TotalResults` to its size.
Each worker stores, under the target's key, the probe result — or the zero
result when the probe reports an error — exactly once per dequeued target, so
the final mapping is the one computed sequentially here regardless of worker
interleaving.  `fuel` bounds the producer's `Next` calls (see
`produceFrom`). -/
def RunM (sp : SubpingM) (ping : PingFn) (fuel : Nat) : SubpingM :=
  let pr := produceFrom sp.targetsIterator fuel
  let res := pr.2.map fun a => (a, workerResult ping a)
  { sp with
      targetsIterator := pr.1
      results := res
      totalResults := (res.length : Int) }

/-- `Subping.GetOnlineHosts`: the sub-map of `Results` whose entries have
`PacketsRecv > 0`, together with its size. -/
def GetOnlineHosts (sp : SubpingM) : List (List Nat × ResultM) × Int :=
  ((sp.results.filter fun kv => decide (0 < kv.2.packetsRecv)),
   ((sp.results.filter fun kv => decide (0 < kv.2.packetsRecv)).length : Int))

/-! ### The mock pinger (internal/ping, mock implementation) -/

/-- `MockHostConfig`: per-host override. -/
structure MockHostConfig where
  latency : Int
  packetLoss : Rat
  shouldError : Bool
  errorMsg : String

/-- The default latency/loss part of `MockPingerConfig` (the override table is
modelled by its lookup result, see `mockPing`). -/
structure MockPingerConfig where
  defaultLatency : Int
  defaultPacketLoss : Rat

/-- Go's float-to-int conversion `int(x)` for in-range values: truncation
toward zero. -/
def truncToInt (x : Rat) : Int := if 0 ≤ x then ⌊x⌋ else ⌈x⌉

/-- The scaling exponent of the float64 (binary64) representation of a
natural number `n < 2^64`: the least `e` with `n < 2^(53+e)`, i.e. 0 when `n`
already fits the 53-bit significand. -/
def fl53exp (n : Nat) : Nat :=
  ((List.range 64).filter fun e => decide (n < 2 ^ (53 + e))).headD 0

/-- The float64 value of a natural number `n < 2^64` — the conversion
`float64(n)` performed by the compiled code: round to nearest with a 53-bit
significand, ties to even.  Exact below `2^53`. -/
def fl53 (n : Nat) : Nat :=
  if n < 2 ^ 53 then n
  else
    if 2 ^ fl53exp n < 2 * (n % 2 ^ fl53exp n)
        ∨ (2 * (n % 2 ^ fl53exp n) = 2 ^ fl53exp n ∧ (n / 2 ^ fl53exp n) % 2 = 1)
    then (n / 2 ^ fl53exp n + 1) * 2 ^ fl53exp n
    else n / 2 ^ fl53exp n * 2 ^ fl53exp n

/-- `PacketsRecv` as computed by the compiled loopback branch of
`mockPinger.calculateResult` for `0 ≤ count` within int64 range:
`int(float64(count) * (1.0 - 0.0))`.  In IEEE 754 binary64 the subtraction
`1.0 - 0.0` is exactly 1.0 and multiplication by 1.0 is exact, so the product
is the float64 rounding `fl53` of the count, an integer-valued float that the
final `int` conversion truncates to itself. -/
def loopbackRecvCompiled (count : Nat) : Nat := fl53 count

/-- `mockPinger.calculateResult`:
`packetsRecv := int(float64(count) * (1.0 - packetLoss))`, clamped at zero,
and the loss ratio scaled to a percentage.  The float64 arithmetic is modelled
exactly over the rationals; for `count ≤ 2^49` and the loss ratios the code
uses (0, 0.1 and configured two-decimal ratios) every float64 intermediate of
the compiled code is exact or correctly rounded and the truncated integer
results of code and model agree, while for larger counts they can differ
(`loopbackRecvCompiled` models the compiled loopback branch there) — which is
why the theorems over this model carry the `count ≤ 2^49` bound. -/
def calculateResult (count : Int) (latency : Int) (packetLoss : Rat) : ResultM :=
  { avgRtt := latency
    packetLoss := packetLoss * 100
    packetsSent := count
    packetsRecv :=
      if truncToInt ((count : Rat) * (1 - packetLoss)) < 0 then 0
      else truncToInt ((count : Rat) * (1 - packetLoss))
    packetsRecvDuplicates := 0 }

/-- The 16-byte IPv6 loopback address `::1`. -/
def v6Loopback : List Nat := [0, 0, 0, 0, 0, 0, 0, 0, 0, 0, 0, 0, 0, 0, 0, 1]

/-- `net.IP.IsLoopback` on the canonical parsed form: a 4-byte address whose
first byte is 127, or `::1` (a 16-byte IPv4-mapped address is reduced to its
4-byte form by `ip.To4` first). -/
def isLoopbackB (b : List Nat) : Bool :=
  (b.length == 4 && b.headD 0 == 127) || b == v6Loopback

/-- The five private ranges of `mockPinger.isPrivateIP`, as parsed by
`net.ParseCIDR`: 10.0.0.0/8, 172.16.0.0/12, 192.168.0.0/16, fc00::/7,
fe80::/10. -/
def privateNets : List IPNetM :=
  [⟨4, 8, [10, 0, 0, 0]⟩, ⟨4, 12, [172, 16, 0, 0]⟩, ⟨4, 16, [192, 168, 0, 0]⟩,
   ⟨16, 7, [252, 0, 0, 0, 0, 0, 0, 0, 0, 0, 0, 0, 0, 0, 0, 0]⟩,
   ⟨16, 10, [254, 128, 0, 0, 0, 0, 0, 0, 0, 0, 0, 0, 0, 0, 0, 0]⟩]

/-- `mockPinger.isPrivateIP` on parsed bytes: `Contains` membership in any of
the five ranges (with its To4 normalization of network and probe). -/
def isPrivateB (b : List Nat) : Bool :=
  privateNets.any fun s => ipnetContains s.netBytes s.mask b

/-- `mockPinger.isLocalhost`: re-parse; an unparseable string is localhost only
if it is the literal `"localhost"`; otherwise the string comparisons
(`"localhost"`, `"127.0.0.1"`, `"::1"`) or `ip.IsLoopback()` — the two literal
IP strings are loopback addresses, so on parsed bytes the check is
`isLoopbackB`. -/
def isLocalhostM (parsed : Option (List Nat)) (isLocalhostLit : Bool) : Bool :=
  match parsed with
  | none => isLocalhostLit
  | some b => isLocalhostLit || isLoopbackB b

/-- `mockPinger.isPrivateIP`: an unparseable address is not private. -/
def isPrivateM (parsed : Option (List Nat)) : Bool :=
  match parsed with
  | none => false
  | some b => isPrivateB b

/-- `mockPinger.Ping`: reject a string that neither parses (`net.ParseIP`)
nor equals the literal `"localhost"`; then per-host override (forced error or
configured latency/loss); then loopback (1ms, no loss), private-range
(configured defaults), or the fixed public profile (50ms, 10% loss).
`parsed` is `net.ParseIP`'s answer for the address string,
`isLocalhostLit` whether the raw string is `"localhost"`, and `hostCfg` the
override table's entry for the exact address string. -/
def mockPing (cfg : MockPingerConfig) (hostCfg : Option MockHostConfig)
    (parsed : Option (List Nat)) (isLocalhostLit : Bool) (count : Int) :
    Except String ResultM :=
  match parsed, isLocalhostLit with
  | none, false => Except.error "invalid IP address"
  | _, _ =>
    match hostCfg with
    | some hc =>
      if hc.shouldError then Except.error hc.errorMsg
      else Except.ok (calculateResult count hc.latency hc.packetLoss)
    | none =>
      if isLocalhostM parsed isLocalhostLit then
        Except.ok (calculateResult count 1000000 0)
      else if isPrivateM parsed then
        Except.ok (calculateResult count cfg.defaultLatency cfg.defaultPacketLoss)
      else
        Except.ok (calculateResult count 50000000 ((1 : Rat) / 10))

/-! ### Shared concrete inputs -/

/-- The subnet of the CIDR string `127.0.0.0/29` (used by the repo's tests). -/
def net29 : IPNetM := ⟨4, 29, [127, 0, 0, 0]⟩

/-- The subnet of the CIDR string `127.0.0.0/31`. -/
def net31 : IPNetM := ⟨4, 31, [127, 0, 0, 0]⟩

/-- The subnet of the CIDR string `127.0.0.0/24`. -/
def net24 : IPNetM := ⟨4, 24, [127, 0, 0, 0]⟩

/-- The one-address subnet of the CIDR string `10.0.0.5/32`. -/
def netFull : IPNetM := ⟨4, 32, [10, 0, 0, 5]⟩

/-- The subnet of the CIDR string `0.0.0.0/0`, a valid CIDR covering the whole
IPv4 space. -/
def netZero : IPNetM := ⟨4, 0, [0, 0, 0, 0]⟩

/-- The subnet of the CIDR string `2001:db8::/64` (64 host bits). -/
def netV6per64 : IPNetM :=
  ⟨16, 64, [32, 1, 13, 184, 0, 0, 0, 0, 0, 0, 0, 0, 0, 0, 0, 0]⟩

/-! ### Claim C1 -/

/-- C1 (counterexample): the claim quantifies over every valid CIDR string,
but on `0.0.0.0/0` the iterator's increment wraps around and the subnet still
contains the result, so `Next` never returns nil and the network address
0.0.0.0 is emitted again at index `2^32` — addresses are not emitted exactly
once; and for `2001:db8::/64` the exposed `TotalHosts` is the
implementation-defined result of an out-of-range float-to-int conversion,
never the claimed `2^64`. -/
theorem C1_counterexample :
    (emitAt netZero 0 = some [0, 0, 0, 0] ∧
     emitAt netZero (2 ^ 32) = some [0, 0, 0, 0]) ∧
    CalculateTotalHosts netV6per64 ≠ some ((2 : Int) ^ 64) := by
  refine ⟨⟨rfl, ?_⟩, by decide⟩
  rw [emitAt_all_pfx0 netZero (by decide) rfl rfl (2 ^ 32)]
  have h : addrOf netZero (2 ^ 32) = [0, 0, 0, 0] := by
    unfold addrOf
    norm_num
    decide
  rw [h]

/-- C1 (amended): for every valid CIDR whose prefix length is at least 1 and
whose block does not straddle the IPv4-mapped range `::ffff:0:0/96` (true of
every IPv4 subnet, of every IPv6 subnet lying inside that range, and of every
IPv6 subnet disjoint from it), the iterator emits, at indices
`0 ≤ k < 2^(bitlen−prefixlen)`, exactly the addresses of the subnet in order
`network+k` — every emission lies inside the subnet, emissions at distinct
indices are distinct addresses, every subnet address is emitted — and the
call after the last host returns nil, so the emitted count is
`2^(bitlen−prefixlen)`; the exposed `TotalHosts` equals that same power of
two whenever it is representable (host bits ≤ 62).  (For IPv4 prefix 0 the
sequence never terminates and re-emits; on IPv6 subnets that straddle
`::ffff:0:0/96` the `To4` normalization inside `Contains` makes `Next` return
nil early, at the first IPv4-mapped address; for more than 62 host bits
`TotalHosts` overflows; see the counterexample.) -/
theorem C1_enumerator (s : IPNetM) (hs : s.Valid) (hp : 1 ≤ s.pfx)
    (hsafe : MappedSafe s) :
    (∀ k, k < 2 ^ s.hostBits →
       emitAt s k = some (bytesOfNat s.addrLen (s.netVal + k))) ∧
    (∀ k, k < 2 ^ s.hostBits →
       ipnetContains s.netBytes s.mask (bytesOfNat s.addrLen (s.netVal + k)) = true) ∧
    (∀ k1 k2, k1 < 2 ^ s.hostBits → k2 < 2 ^ s.hostBits → k1 ≠ k2 →
       bytesOfNat s.addrLen (s.netVal + k1) ≠ bytesOfNat s.addrLen (s.netVal + k2)) ∧
    (∀ v, s.netVal ≤ v → v < s.netVal + 2 ^ s.hostBits →
       ∃ k, k < 2 ^ s.hostBits ∧ emitAt s k = some (bytesOfNat s.addrLen v)) ∧
    emitAt s (2 ^ s.hostBits) = none ∧
    (s.hostBits ≤ 62 → CalculateTotalHosts s = some ((2 : Int) ^ s.hostBits)) := by
  have hblock := net_block_le s hs
  refine ⟨?_, ?_, ?_, ?_, emitAt_end_none s hs hp, ?_⟩
  · intro k hk
    exact emitAt_of_lt s hs hsafe hk
  · intro k hk
    have hv : s.netVal + k < 2 ^ (8 * s.addrLen) := by omega
    rw [ipnetContains_val s hs _ hv]
    exact ⟨by omega, by omega, mappedSafe_third s hsafe (by omega) (by omega)⟩
  · intro k1 k2 h1 h2 hne heq
    have hb1 : s.netVal + k1 < 256 ^ s.addrLen := by rw [pow256]; omega
    have hb2 : s.netVal + k2 < 256 ^ s.addrLen := by rw [pow256]; omega
    have hv := congrArg beVal heq
    rw [beVal_bytesOfNat hb1, beVal_bytesOfNat hb2] at hv
    omega
  · intro v hv1 hv2
    refine ⟨v - s.netVal, by omega, ?_⟩
    rw [emitAt_of_lt s hs hsafe (by omega)]
    have hvv : s.netVal + (v - s.netVal) = v := by omega
    rw [hvv]
  · intro h62
    unfold CalculateTotalHosts
    rw [if_pos (show 8 * s.addrLen - s.pfx ≤ 62 from h62)]
    rfl

/-- C1 (witness): the amended statement instantiated at `127.0.0.0/29`. -/
theorem C1_witness :
    net29.Valid ∧ 1 ≤ net29.pfx ∧ MappedSafe net29 ∧
    ((∀ k, k < 2 ^ net29.hostBits →
        emitAt net29 k = some (bytesOfNat net29.addrLen (net29.netVal + k))) ∧
     (∀ k, k < 2 ^ net29.hostBits →
        ipnetContains net29.netBytes net29.mask
          (bytesOfNat net29.addrLen (net29.netVal + k)) = true) ∧
     (∀ k1 k2, k1 < 2 ^ net29.hostBits → k2 < 2 ^ net29.hostBits → k1 ≠ k2 →
        bytesOfNat net29.addrLen (net29.netVal + k1)
          ≠ bytesOfNat net29.addrLen (net29.netVal + k2)) ∧
     (∀ v, net29.netVal ≤ v → v < net29.netVal + 2 ^ net29.hostBits →
        ∃ k, k < 2 ^ net29.hostBits ∧
          emitAt net29 k = some (bytesOfNat net29.addrLen v)) ∧
     emitAt net29 (2 ^ net29.hostBits) = none ∧
     (net29.hostBits ≤ 62 →
        CalculateTotalHosts net29 = some ((2 : Int) ^ net29.hostBits))) :=
  ⟨by decide, by decide, by decide,
    C1_enumerator net29 (by decide) (by decide) (by decide)⟩

/-! ### Claim C4 -/

/-- C4 (counterexample): on the valid CIDR `0.0.0.0/0` the emitted sequence is
not in ascending byte order and has no final element equal to the last host
address: the emission at index `2^32 - 1` is 255.255.255.255, yet the next
call emits 0.0.0.0 (strictly smaller in byte order) instead of terminating. -/
theorem C4_counterexample :
    emitAt netZero (2 ^ 32 - 1) = some [255, 255, 255, 255] ∧
    emitAt netZero (2 ^ 32) = some [0, 0, 0, 0] ∧
    lexLtBytes [0, 0, 0, 0] [255, 255, 255, 255] = true := by
  refine ⟨?_, ?_, by decide⟩
  · rw [emitAt_all_pfx0 netZero (by decide) rfl rfl (2 ^ 32 - 1)]
    have h : addrOf netZero (2 ^ 32 - 1) = [255, 255, 255, 255] := by
      unfold addrOf
      norm_num
      decide
    rw [h]
  · rw [emitAt_all_pfx0 netZero (by decide) rfl rfl (2 ^ 32)]
    have h : addrOf netZero (2 ^ 32) = [0, 0, 0, 0] := by
      unfold addrOf
      norm_num
      decide
    rw [h]

/-- C4 (amended): for every valid CIDR with prefix length at least 1 the
emitted sequence is in strictly ascending byte order, its first element (the
very first `Next` call) is the network address, the emission at index
`2^hostBits − 1` — the final one, since the next call returns nil — equals
`GetLastIPAddressFromIPNet` (all host bits set), and a 1-address subnet
(prefix = full address length) yields exactly one address.  Stated for
subnets whose block does not straddle the IPv4-mapped range `::ffff:0:0/96`,
where `Contains`' `To4` normalization would end the sequence early.  (For
IPv4 prefix 0 the order and termination fail; see the counterexample.) -/
theorem C4_order_first_last (s : IPNetM) (hs : s.Valid) (hp : 1 ≤ s.pfx)
    (hsafe : MappedSafe s) :
    emitAt s 0 = some (GetFirstIPAddressFromIPNet s) ∧
    (∀ k1 k2 a1 a2, k1 < k2 → k2 < 2 ^ s.hostBits →
       emitAt s k1 = some a1 → emitAt s k2 = some a2 →
       lexLtBytes a1 a2 = true) ∧
    emitAt s (2 ^ s.hostBits - 1) = some (GetLastIPAddressFromIPNet s) ∧
    emitAt s (2 ^ s.hostBits) = none ∧
    (s.pfx = 8 * s.addrLen → emitAt s 0 = some s.netBytes ∧ emitAt s 1 = none) := by
  have hblock := net_block_le s hs
  have hpos : 0 < (2:Nat) ^ s.hostBits := Nat.pos_pow_of_pos _ (by norm_num)
  refine ⟨rfl, ?_, ?_, emitAt_end_none s hs hp, ?_⟩
  · intro k1 k2 a1 a2 h12 h2 he1 he2
    rw [emitAt_of_lt s hs hsafe (by omega)] at he1
    rw [emitAt_of_lt s hs hsafe h2] at he2
    have ha1 : a1 = bytesOfNat s.addrLen (s.netVal + k1) := by
      injection he1 with h; exact h.symm
    have ha2 : a2 = bytesOfNat s.addrLen (s.netVal + k2) := by
      injection he2 with h; exact h.symm
    subst ha1; subst ha2
    have hb1 : s.netVal + k1 < 256 ^ s.addrLen := by rw [pow256]; omega
    have hb2 : s.netVal + k2 < 256 ^ s.addrLen := by rw [pow256]; omega
    rw [lexLtBytes_iff _ _ (bytesOfNat_ok hb1) (bytesOfNat_ok hb2)
      (by rw [bytesOfNat_length, bytesOfNat_length])]
    rw [beVal_bytesOfNat hb1, beVal_bytesOfNat hb2]
    omega
  · rw [emitAt_of_lt s hs hsafe (by omega)]
    obtain ⟨lv, lok, llen⟩ := lastBytes_spec s.netBytes hs.2.2.1 s.pfx
      (by rw [hs.2.1]; exact hs.2.2.2.1) (by rw [hs.2.1]; exact hs.2.2.2.2)
    rw [hs.2.1] at lv lok llen
    show some (bytesOfNat s.addrLen (s.netVal + (2 ^ s.hostBits - 1)))
      = some (lastBytes s.netBytes (maskBytes s.addrLen s.pfx))
    have hval : s.netVal + (2 ^ s.hostBits - 1)
        = beVal (lastBytes s.netBytes (maskBytes s.addrLen s.pfx)) := by
      rw [lv]
      show s.netVal + (2 ^ (8 * s.addrLen - s.pfx) - 1)
        = beVal s.netBytes + 2 ^ (8 * s.addrLen - s.pfx) - 1
      have hppos : 0 < (2:Nat) ^ (8 * s.addrLen - s.pfx) :=
        Nat.pos_pow_of_pos _ (by norm_num)
      show s.netVal + (2 ^ (8 * s.addrLen - s.pfx) - 1)
        = s.netVal + 2 ^ (8 * s.addrLen - s.pfx) - 1
      omega
    have hfin : bytesOfNat s.addrLen (s.netVal + (2 ^ s.hostBits - 1))
        = lastBytes s.netBytes (maskBytes s.addrLen s.pfx) := by
      rw [hval]
      calc bytesOfNat s.addrLen
            (beVal (lastBytes s.netBytes (maskBytes s.addrLen s.pfx)))
          = bytesOfNat (lastBytes s.netBytes (maskBytes s.addrLen s.pfx)).length
              (beVal (lastBytes s.netBytes (maskBytes s.addrLen s.pfx))) := by
            rw [llen]
        _ = lastBytes s.netBytes (maskBytes s.addrLen s.pfx) := bytesOfNat_beVal lok
    rw [hfin]
  · intro hfull
    have hh0 : s.hostBits = 0 := by
      unfold IPNetM.hostBits
      omega
    constructor
    · have h1 : (0:Nat) < 2 ^ s.hostBits := hpos
      rw [emitAt_of_lt s hs hsafe h1]
      have h2 : s.netVal + 0 = beVal s.netBytes := by
        show s.netVal + 0 = s.netVal
        omega
      rw [h2]
      have h3 := bytesOfNat_beVal hs.2.2.1
      rw [hs.2.1] at h3
      rw [h3]
    · have h1 : (1:Nat) = 2 ^ s.hostBits := by rw [hh0]; norm_num
      rw [h1]
      exact emitAt_end_none s hs hp

/-- C4 (witness): the amended statement instantiated at the one-address subnet
`10.0.0.5/32`. -/
theorem C4_witness :
    netFull.Valid ∧ 1 ≤ netFull.pfx ∧ MappedSafe netFull ∧
    (emitAt netFull 0 = some (GetFirstIPAddressFromIPNet netFull) ∧
     (∀ k1 k2 a1 a2, k1 < k2 → k2 < 2 ^ netFull.hostBits →
        emitAt netFull k1 = some a1 → emitAt netFull k2 = some a2 →
        lexLtBytes a1 a2 = true) ∧
     emitAt netFull (2 ^ netFull.hostBits - 1)
       = some (GetLastIPAddressFromIPNet netFull) ∧
     emitAt netFull (2 ^ netFull.hostBits) = none ∧
     (netFull.pfx = 8 * netFull.addrLen →
        emitAt netFull 0 = some netFull.netBytes ∧ emitAt netFull 1 = none)) :=
  ⟨by decide, by decide, by decide,
    C4_order_first_last netFull (by decide) (by decide) (by decide)⟩

/-! ### Claim C5 -/

theorem calcMaxPartition_pos {d w : Int} (hd : 0 < d) (hw : 0 < w) :
    ∃ q, calculateMaxPartitionSize d w = Except.ok q ∧ 0 ≤ q ∧
      w * (q - 1) < d ∧ d ≤ w * q := by
  have hdm := Int.tdiv_add_tmod d w
  have hr0 : 0 ≤ d.tmod w := Int.tmod_nonneg w (le_of_lt hd)
  have hrw : d.tmod w < w := Int.tmod_lt_of_pos d hw
  have hq0 : 0 ≤ d.tdiv w := Int.tdiv_nonneg (le_of_lt hd) (le_of_lt hw)
  by_cases hr : d.tmod w = 0
  · refine ⟨d.tdiv w, ?_, hq0, ?_, ?_⟩
    · show (if (if d.tmod w ≠ 0 then d.tdiv w + 1 else d.tdiv w) < 0 then
          Except.error "the value exceeds the range of int"
        else Except.ok (if d.tmod w ≠ 0 then d.tdiv w + 1 else d.tdiv w))
        = Except.ok (d.tdiv w)
      rw [if_neg (not_not_intro hr), if_neg (by omega : ¬ d.tdiv w < 0)]
    · have h2 : w * (d.tdiv w - 1) = w * d.tdiv w - w := by ring
      omega
    · omega
  · refine ⟨d.tdiv w + 1, ?_, by omega, ?_, ?_⟩
    · show (if (if d.tmod w ≠ 0 then d.tdiv w + 1 else d.tdiv w) < 0 then
          Except.error "the value exceeds the range of int"
        else Except.ok (if d.tmod w ≠ 0 then d.tdiv w + 1 else d.tdiv w))
        = Except.ok (d.tdiv w + 1)
      rw [if_pos hr, if_neg (by omega : ¬ d.tdiv w + 1 < 0)]
    · have h2 : w * (d.tdiv w + 1 - 1) = w * d.tdiv w := by ring
      omega
    · have h3 : w * (d.tdiv w + 1) = w * d.tdiv w + w := by ring
      omega

/-- C5: for all positive totalHosts `d` and workerCount `w` the partition
sizer returns exactly `ceil(d / w)` — the unique `q` with
`w*(q-1) < d ≤ w*q` — and never reports an error; the error branch fires
exactly when the computed value is negative, which positive inputs exclude. -/
theorem C5_partition_size (d w : Int) (hd : 0 < d) (hw : 0 < w) :
    ∃ q, calculateMaxPartitionSize d w = Except.ok q ∧ 0 ≤ q ∧
      w * (q - 1) < d ∧ d ≤ w * q ∧
      ∀ e : String, calculateMaxPartitionSize d w ≠ Except.error e := by
  obtain ⟨q, hq, h0, h1, h2⟩ := calcMaxPartition_pos hd hw
  refine ⟨q, hq, h0, h1, h2, ?_⟩
  intro e he
  rw [hq] at he
  exact absurd he (by simp)

/-- C5 (witness): `size(256,10) = 26`, `size(256,256) = 1`, `size(1,1) = 1`,
and the theorem instantiated at `(256, 10)`. -/
theorem C5_witness :
    ((0:Int) < 256 ∧ (0:Int) < 10 ∧
     ∃ q, calculateMaxPartitionSize 256 10 = Except.ok q ∧ 0 ≤ q ∧
       10 * (q - 1) < 256 ∧ (256:Int) ≤ 10 * q ∧
       ∀ e : String, calculateMaxPartitionSize 256 10 ≠ Except.error e) ∧
    calculateMaxPartitionSize 256 10 = Except.ok 26 ∧
    calculateMaxPartitionSize 256 256 = Except.ok 1 ∧
    calculateMaxPartitionSize 1 1 = Except.ok 1 :=
  ⟨⟨by norm_num, by norm_num,
    C5_partition_size 256 10 (by norm_num) (by norm_num)⟩, rfl, rfl, rfl⟩

/-! ### Claims C2, C6, C10 -/

theorem RunM_results_spec (s : IPNetM) (hs : s.Valid) (hp : 1 ≤ s.pfx)
    (hsafe : MappedSafe s)
    (sp : SubpingM) (hsp : sp.targetsIterator = NewSubnetHostsIterator s)
    (ping : PingFn) (fuel : Nat) (hfuel : 2 ^ s.hostBits < fuel) :
    (RunM sp ping fuel).results
      = ((List.range (2 ^ s.hostBits)).map
          (fun i => bytesOfNat s.addrLen (s.netVal + i))).map
          (fun a => (a, workerResult ping a)) ∧
    (RunM sp ping fuel).targetsIterator = iterAfter s (2 ^ s.hostBits + 1) := by
  have hpr : produceFrom sp.targetsIterator fuel
      = (iterAfter s (2 ^ s.hostBits + 1),
         (List.range (2 ^ s.hostBits)).map
           (fun i => bytesOfNat s.addrLen (s.netVal + i))) := by
    rw [hsp]; exact produceFrom_spec s hs hp hsafe fuel hfuel
  constructor
  · show (produceFrom sp.targetsIterator fuel).2.map
      (fun a => (a, workerResult ping a)) = _
    rw [hpr]
  · show (produceFrom sp.targetsIterator fuel).1 = _
    rw [hpr]

/-- C2 (amended): once `Run()` has completed on a validly constructed session
over a subnet with prefix ≥ 1 (for IPv4 prefix 0 `Run` never completes) whose
block does not straddle the IPv4-mapped range `::ffff:0:0/96`, the rebuilt
results mapping has exactly one entry per host of the subnet: its cardinality
— both `len(Results)` and the recorded `TotalResults` — equals `2^hostBits`,
the keys are pairwise distinct, the mapping returned by `GetOnlineHosts` is a
sub-collection of it, its reported size is at most the total, and the host
count agrees with the subnet's `TotalHosts` whenever that is representable.
(On straddling subnets such as `::fffe:0:0/95` the run completes with fewer
entries than hosts; see the counterexample.) -/
theorem C2_run_results (s : IPNetM) (hs : s.Valid) (hp : 1 ≤ s.pfx)
    (hsafe : MappedSafe s)
    (sp : SubpingM) (hsp : sp.targetsIterator = NewSubnetHostsIterator s)
    (ping : PingFn) (fuel : Nat) (hfuel : 2 ^ s.hostBits < fuel) :
    (RunM sp ping fuel).results.length = 2 ^ s.hostBits ∧
    (RunM sp ping fuel).totalResults = ((2 ^ s.hostBits : Nat) : Int) ∧
    ((RunM sp ping fuel).results.map Prod.fst).Nodup ∧
    (∀ kv ∈ (GetOnlineHosts (RunM sp ping fuel)).1,
       kv ∈ (RunM sp ping fuel).results) ∧
    (GetOnlineHosts (RunM sp ping fuel)).2 ≤ (RunM sp ping fuel).totalResults ∧
    (s.hostBits ≤ 62 →
       CalculateTotalHosts s = some ((RunM sp ping fuel).totalResults)) := by
  obtain ⟨hres, _⟩ := RunM_results_spec s hs hp hsafe sp hsp ping fuel hfuel
  have hblock := net_block_le s hs
  have hlen : (RunM sp ping fuel).results.length = 2 ^ s.hostBits := by
    rw [hres]
    simp
  have htot : (RunM sp ping fuel).totalResults
      = ((RunM sp ping fuel).results.length : Int) := rfl
  refine ⟨hlen, by rw [htot, hlen], ?_, ?_, ?_, ?_⟩
  · have hkeys : (RunM sp ping fuel).results.map Prod.fst
        = (List.range (2 ^ s.hostBits)).map
            (fun i => bytesOfNat s.addrLen (s.netVal + i)) := by
      rw [hres, List.map_map]
      simp
    rw [hkeys]
    apply List.Nodup.map_on _ (List.nodup_range _)
    intro x hx y hy heq
    have hxr := List.mem_range.mp hx
    have hyr := List.mem_range.mp hy
    have hbx : s.netVal + x < 256 ^ s.addrLen := by rw [pow256]; omega
    have hby : s.netVal + y < 256 ^ s.addrLen := by rw [pow256]; omega
    have hv := congrArg beVal heq
    rw [beVal_bytesOfNat hbx, beVal_bytesOfNat hby] at hv
    omega
  · intro kv hkv
    have hkv2 : kv ∈ (RunM sp ping fuel).results.filter
        (fun kv => decide (0 < kv.2.packetsRecv)) := hkv
    exact (List.mem_filter.mp hkv2).1
  · show (((RunM sp ping fuel).results.filter
      (fun kv => decide (0 < kv.2.packetsRecv))).length : Int)
      ≤ (RunM sp ping fuel).totalResults
    rw [htot]
    have := List.length_filter_le (fun kv => decide (0 < kv.2.packetsRecv))
      (RunM sp ping fuel).results
    omega
  · intro h62
    unfold CalculateTotalHosts
    rw [if_pos (show 8 * s.addrLen - s.pfx ≤ 62 from h62), htot, hlen]
    push_cast
    rfl

/-- C6: a probe error for one host is recovered locally — the worker stores
the zero-value `ping.Result{}` under that host's key and the scan continues:
on any session, whatever the probe errors, the final results mapping has
exactly one entry per produced target, in enqueue order — the failed host
appears with the zero Result and the error aborts no other host's entry. -/
theorem C6_probe_error_nonfatal (sp : SubpingM) (ping : PingFn) (fuel : Nat)
    (a : List Nat) (e : String) (hpe : ping a = Except.error e)
    (ha : a ∈ (produceFrom sp.targetsIterator fuel).2) :
    (a, zeroResult) ∈ (RunM sp ping fuel).results ∧
    ((RunM sp ping fuel).results.map Prod.fst
       = (produceFrom sp.targetsIterator fuel).2) ∧
    (∀ b ∈ (produceFrom sp.targetsIterator fuel).2,
       (b, workerResult ping b) ∈ (RunM sp ping fuel).results) ∧
    (RunM sp ping fuel).results.length
      = (produceFrom sp.targetsIterator fuel).2.length := by
  have hwz : workerResult ping a = zeroResult := by
    unfold workerResult
    rw [hpe]
  have hmem : ∀ b ∈ (produceFrom sp.targetsIterator fuel).2,
      (b, workerResult ping b) ∈ (RunM sp ping fuel).results := by
    intro b hb
    show _ ∈ (produceFrom sp.targetsIterator fuel).2.map
      (fun a => (a, workerResult ping a))
    exact List.mem_map_of_mem _ hb
  refine ⟨?_, ?_, hmem, ?_⟩
  · have h := hmem a ha
    rw [hwz] at h
    exact h
  · show ((produceFrom sp.targetsIterator fuel).2.map
      (fun a => (a, workerResult ping a))).map Prod.fst = _
    have hid : (Prod.fst ∘ fun a : List Nat => (a, workerResult ping a)) = id := rfl
    rw [List.map_map, hid, List.map_id]
  · show ((produceFrom sp.targetsIterator fuel).2.map
      (fun a => (a, workerResult ping a))).length = _
    rw [List.length_map]

/-- C10: a session is single-use — after one completed `Run()` the iterator is
past the end of the subnet, so a second `Run()` on the same session enqueues
nothing (the single `Next` call of its producer loop returns nil immediately)
and overwrites the results: the first run's mapping has the full `2^hostBits`
entries, the second leaves `Results` empty and `TotalResults` 0.  Stated for
subnets whose block does not straddle the IPv4-mapped range `::ffff:0:0/96`,
where the first run enumerates the whole subnet. -/
theorem C10_session_single_use (s : IPNetM) (hs : s.Valid) (hp : 1 ≤ s.pfx)
    (hsafe : MappedSafe s)
    (sp : SubpingM) (hsp : sp.targetsIterator = NewSubnetHostsIterator s)
    (ping ping2 : PingFn) (fuel fuel2 : Nat)
    (hfuel : 2 ^ s.hostBits < fuel) (hf2 : 1 ≤ fuel2) :
    (RunM sp ping fuel).results.length = 2 ^ s.hostBits ∧
    (RunM (RunM sp ping fuel) ping2 fuel2).results = [] ∧
    (RunM (RunM sp ping fuel) ping2 fuel2).totalResults = 0 := by
  obtain ⟨hres, hit⟩ := RunM_results_spec s hs hp hsafe sp hsp ping fuel hfuel
  have hpr2 : produceFrom (RunM sp ping fuel).targetsIterator fuel2
      = ((iterAfter s (2 ^ s.hostBits + 1)).next.1, []) := by
    rw [hit]
    exact produceFrom_after_end s hs hp fuel2 hf2
  have hres2 : (RunM (RunM sp ping fuel) ping2 fuel2).results = [] := by
    show (produceFrom (RunM sp ping fuel).targetsIterator fuel2).2.map
      (fun a => (a, workerResult ping2 a)) = []
    rw [hpr2]
    rfl
  refine ⟨?_, hres2, ?_⟩
  · rw [hres]
    simp
  · show ((RunM (RunM sp ping fuel) ping2 fuel2).results.length : Int) = 0
    rw [hres2]
    rfl

/-! ### Concrete sessions for the witnesses -/

/-- A validly constructed session over `127.0.0.0/29` (count 1, 4 workers). -/
def spTest : SubpingM :=
  ⟨NewSubnetHostsIterator net29, 1, 0, 0, 2, [], 0, 4, PingerKind.mock⟩

/-- A validly constructed session over `127.0.0.0/31`. -/
def spTest31 : SubpingM :=
  ⟨NewSubnetHostsIterator net31, 1, 0, 0, 1, [], 0, 1, PingerKind.mock⟩

/-- A probe that answers every address. -/
def pingOk : PingFn := fun _ => Except.ok ⟨1000000, 0, 1, 1, 0⟩

/-- A probe that fails on 127.0.0.1 and answers everywhere else. -/
def pingFail : PingFn := fun b =>
  if b = [127, 0, 0, 1] then Except.error "probe failed"
  else Except.ok ⟨1000000, 0, 1, 1, 0⟩

/-- C2 (witness): the statement instantiated at `127.0.0.0/29` with a concrete
session, probe and fuel 9. -/
theorem C2_witness :
    net29.Valid ∧ 1 ≤ net29.pfx ∧ MappedSafe net29 ∧
    spTest.targetsIterator = NewSubnetHostsIterator net29 ∧ 2 ^ net29.hostBits < 9 ∧
    ((RunM spTest pingOk 9).results.length = 2 ^ net29.hostBits ∧
     (RunM spTest pingOk 9).totalResults = ((2 ^ net29.hostBits : Nat) : Int) ∧
     ((RunM spTest pingOk 9).results.map Prod.fst).Nodup ∧
     (∀ kv ∈ (GetOnlineHosts (RunM spTest pingOk 9)).1,
        kv ∈ (RunM spTest pingOk 9).results) ∧
     (GetOnlineHosts (RunM spTest pingOk 9)).2 ≤ (RunM spTest pingOk 9).totalResults ∧
     (net29.hostBits ≤ 62 →
        CalculateTotalHosts net29 = some ((RunM spTest pingOk 9).totalResults))) :=
  ⟨by decide, by decide, by decide, rfl, by decide,
   C2_run_results net29 (by decide) (by decide) (by decide) spTest rfl pingOk 9
     (by decide)⟩

/-- The subnet `::fffe:0:0/95`: a valid IPv6 CIDR (network value
`2^48 − 2^33`, 33 host bits) whose `2^33`-address block straddles the
IPv4-mapped range `::ffff:0:0/96` — its upper half consists exactly of the
IPv4-mapped addresses `::ffff:0.0.0.0` … `::ffff:255.255.255.255`. -/
def net95 : IPNetM :=
  ⟨16, 95, [0, 0, 0, 0, 0, 0, 0, 0, 0, 0, 255, 254, 0, 0, 0, 0]⟩

/-- A session over `::fffe:0:0/95`. -/
def sp95 : SubpingM :=
  ⟨NewSubnetHostsIterator net95, 1, 0, 0, 1, [], 0, 4, PingerKind.mock⟩

theorem net95_emit : ∀ k, k < 2 ^ 32 →
    emitAt net95 k = some (bytesOfNat net95.addrLen (net95.netVal + k)) := by
  have hs : net95.Valid := by decide
  have hNv : net95.netVal = 2 ^ 48 - 2 ^ 33 := by decide
  intro k hk
  cases k with
  | zero =>
    rw [emitAt_zero, Nat.add_zero, ← netBytes_eq net95 hs]
  | succ k =>
    have hlt : net95.netVal + (k + 1) < 2 ^ (8 * net95.addrLen) := by
      have hW : (2:Nat) ^ (8 * net95.addrLen) = 2 ^ 128 := by decide
      omega
    have haddr : addrOf net95 (k + 1)
        = bytesOfNat net95.addrLen (net95.netVal + (k + 1)) := by
      unfold addrOf
      rw [Nat.mod_eq_of_lt hlt]
    rw [emitAt_succ_eq net95 hs k, haddr, if_pos]
    rw [ipnetContains_val net95 hs _ hlt]
    have hhb : net95.hostBits = 33 := by decide
    refine ⟨by omega, by rw [hhb]; omega, fun _ => Or.inr fun hv => ?_⟩
    obtain ⟨hge, _⟩ : 2 ^ 48 - 2 ^ 32 ≤ net95.netVal + (k + 1) ∧
        net95.netVal + (k + 1) < 2 ^ 48 := hv
    omega

theorem net95_end : emitAt net95 (2 ^ 32) = none := by
  have hs : net95.Valid := by decide
  have hNv : net95.netVal = 2 ^ 48 - 2 ^ 33 := by decide
  have hsplit : (2:Nat) ^ 32 = (2 ^ 32 - 1) + 1 := by omega
  rw [hsplit, emitAt_succ_eq net95 hs (2 ^ 32 - 1), if_neg]
  intro hcon
  have hWpos : (0:Nat) < 2 ^ (8 * net95.addrLen) := Nat.pos_pow_of_pos _ (by norm_num)
  have hcv := (ipnetContains_val net95 hs
    ((net95.netVal + (2 ^ 32 - 1 + 1)) % 2 ^ (8 * net95.addrLen))
    (Nat.mod_lt _ hWpos)).mp hcon
  obtain ⟨h1, h2, h3⟩ := hcv
  have hW : (2:Nat) ^ (8 * net95.addrLen) = 2 ^ 128 := by decide
  have hmod : (net95.netVal + (2 ^ 32 - 1 + 1)) % 2 ^ (8 * net95.addrLen)
      = 2 ^ 48 - 2 ^ 32 := by
    rw [hW, hNv]
    omega
  rw [hmod] at h3
  rcases h3 rfl with hx | hx
  · obtain ⟨hge, _⟩ : 2 ^ 48 - 2 ^ 32 ≤ net95.netVal ∧ net95.netVal < 2 ^ 48 := hx
    omega
  · exact hx ⟨by omega, by omega⟩

theorem net95_produce (fuel : Nat) (hfuel : 2 ^ 32 < fuel) :
    produceFrom (NewSubnetHostsIterator net95) fuel
      = (iterAfter net95 (2 ^ 32 + 1),
         (List.range (2 ^ 32)).map
           (fun i => bytesOfNat net95.addrLen (net95.netVal + i))) := by
  have h := produceFrom_upTo net95 (2 ^ 32) net95_emit net95_end fuel 0 (Nat.zero_le _)
    (show 2 ^ 32 - 0 < fuel by rwa [Nat.sub_zero])
  have h0 : iterAfter net95 0 = NewSubnetHostsIterator net95 := rfl
  rw [h0] at h
  rw [h]
  simp

/-- C2 (counterexample): on the valid CIDR `::fffe:0:0/95` a `Run()` does
complete — the producer's `Next` returns nil at the subnet's 2^32-nd address
`::ffff:0:0`, the first IPv4-mapped one, which `Contains` rejects because
`To4` reduces the probe to 4 bytes — but the rebuilt results mapping then has
only `2^32` entries while the subnet has `2^33 = 2^hostBits` hosts and its
exposed `TotalHosts` is `2^33`: the claimed equality of results cardinality
and total host count fails. -/
theorem C2_counterexample :
    net95.Valid ∧ 1 ≤ net95.pfx ∧
    CalculateTotalHosts net95 = some ((2 : Int) ^ 33) ∧
    emitAt net95 (2 ^ 32) = none ∧
    (RunM sp95 pingOk (2 ^ 32 + 2)).results.length = 2 ^ 32 ∧
    2 ^ net95.hostBits = (2 ^ 33 : Nat) ∧
    (2 ^ 32 : Nat) ≠ 2 ^ 33 := by
  refine ⟨by decide, by decide, by decide, net95_end, ?_, by decide, by norm_num⟩
  show ((produceFrom sp95.targetsIterator (2 ^ 32 + 2)).2.map
    (fun a => (a, workerResult pingOk a))).length = 2 ^ 32
  have hsp : sp95.targetsIterator = NewSubnetHostsIterator net95 := rfl
  rw [hsp, net95_produce (2 ^ 32 + 2) (by omega)]
  rw [List.length_map, List.length_map, List.length_range]

/-- C6 (witness): the statement instantiated at a session over `127.0.0.0/31`
with a probe that fails on 127.0.0.1. -/
theorem C6_witness :
    pingFail [127, 0, 0, 1] = Except.error "probe failed" ∧
    [127, 0, 0, 1] ∈ (produceFrom spTest31.targetsIterator 3).2 ∧
    (([127, 0, 0, 1], zeroResult) ∈ (RunM spTest31 pingFail 3).results ∧
     ((RunM spTest31 pingFail 3).results.map Prod.fst
        = (produceFrom spTest31.targetsIterator 3).2) ∧
     (∀ b ∈ (produceFrom spTest31.targetsIterator 3).2,
        (b, workerResult pingFail b) ∈ (RunM spTest31 pingFail 3).results) ∧
     (RunM spTest31 pingFail 3).results.length
       = (produceFrom spTest31.targetsIterator 3).2.length) :=
  ⟨rfl, by decide,
   C6_probe_error_nonfatal spTest31 pingFail 3 [127, 0, 0, 1] "probe failed" rfl
     (by decide)⟩

/-- C10 (witness): the statement instantiated at `127.0.0.0/29`: the first run
collects 8 results, the second run collects none. -/
theorem C10_witness :
    net29.Valid ∧ 1 ≤ net29.pfx ∧ MappedSafe net29 ∧
    spTest.targetsIterator = NewSubnetHostsIterator net29 ∧
    2 ^ net29.hostBits < 9 ∧ (1:Nat) ≤ 1 ∧
    ((RunM spTest pingOk 9).results.length = 2 ^ net29.hostBits ∧
     (RunM (RunM spTest pingOk 9) pingOk 1).results = [] ∧
     (RunM (RunM spTest pingOk 9) pingOk 1).totalResults = 0) :=
  ⟨by decide, by decide, by decide, rfl, by decide, by decide,
   C10_session_single_use net29 (by decide) (by decide) (by decide) spTest rfl
     pingOk pingOk 9 1 (by decide) (by decide)⟩

/-! ### Claim C3 -/

/-- Options with everything the claim calls valid, but an unparseable log
level. -/
def optsBadLevel : OptionsM := ⟨"verbose", "127.0.0.0/24", 3, 0, 0, 2⟩

/-- C3 (counterexample): an option set satisfying every validity condition the
claim lists (non-empty parseable CIDR, count ≥ 1, workers ≥ 1, non-negative
timeout and interval) still fails construction when its LogLevel is not a
logrus level — so construction failure is not equivalent to the claim's list
of invalid conditions. -/
theorem C3_counterexample :
    (optsBadLevel.subnet ≠ "" ∧ 1 ≤ optsBadLevel.count ∧
     1 ≤ optsBadLevel.maxWorkers ∧ 0 ≤ optsBadLevel.timeout ∧
     0 ≤ optsBadLevel.interval ∧ CalculateTotalHosts net24 = some 256) ∧
    NewSubping optsBadLevel (some net24) 256 (fun _ => "")
      = Except.error "failed to parse log level" := by
  refine ⟨⟨?_, ?_, ?_, ?_, ?_, ?_⟩, ?_⟩
  · decide
  · decide
  · decide
  · decide
  · decide
  · decide
  · rfl

/-- C3 (amended): construction of a session fails with an error if and only if
the options are invalid, where besides the claim's list (empty or unparseable
CIDR, count < 1, worker count < 1, negative timeout or interval) the log level
must also parse (an empty LogLevel defaults to "error" and is fine).  Stated
for subnets whose TotalHosts computation is platform-independent (host bits ≤
62), where the partition sizer cannot fail. -/
theorem C3_construction_iff (opts : OptionsM) (parsed : Option IPNetM)
    (getenv : String → String) (th : Int)
    (hth : ∀ s, parsed = some s → CalculateTotalHosts s = some th) :
    (∃ sp, NewSubping opts parsed th getenv = Except.ok sp) ↔
      (opts.subnet ≠ "" ∧ 1 ≤ opts.count ∧ 1 ≤ opts.maxWorkers ∧
       0 ≤ opts.timeout ∧ 0 ≤ opts.interval ∧ (∃ s, parsed = some s) ∧
       parseLevelOk (if opts.logLevel = "" then "error" else opts.logLevel)
         = true) := by
  unfold NewSubping
  by_cases h1 : opts.subnet = ""
  · rw [if_pos h1]
    constructor
    · rintro ⟨sp, hsp⟩
      exact absurd hsp (by simp)
    · rintro ⟨hne, _⟩
      exact absurd h1 hne
  · rw [if_neg h1]
    by_cases h2 : opts.count < 1
    · rw [if_pos h2]
      constructor
      · rintro ⟨sp, hsp⟩
        exact absurd hsp (by simp)
      · rintro ⟨_, hc, _⟩
        omega
    · rw [if_neg h2]
      by_cases h3 : opts.maxWorkers < 1
      · rw [if_pos h3]
        constructor
        · rintro ⟨sp, hsp⟩
          exact absurd hsp (by simp)
        · rintro ⟨_, _, hw, _⟩
          omega
      · rw [if_neg h3]
        by_cases h4 : opts.timeout < 0
        · rw [if_pos h4]
          constructor
          · rintro ⟨sp, hsp⟩
            exact absurd hsp (by simp)
          · rintro ⟨_, _, _, ht, _⟩
            omega
        · rw [if_neg h4]
          by_cases h5 : opts.interval < 0
          · rw [if_pos h5]
            constructor
            · rintro ⟨sp, hsp⟩
              exact absurd hsp (by simp)
            · rintro ⟨_, _, _, _, hi, _⟩
              omega
          · rw [if_neg h5]
            rcases parsed with _ | s
            · constructor
              · rintro ⟨sp, hsp⟩
                exact absurd hsp (by simp)
              · rintro ⟨_, _, _, _, _, ⟨s, hsome⟩, _⟩
                exact absurd hsome (by simp)
            · have hth2 := hth s rfl
              have hthpos : 0 < th := by
                unfold CalculateTotalHosts at hth2
                split_ifs at hth2 with h62
                injection hth2 with h
                rw [← h]
                positivity
              obtain ⟨q, hq, hq0, _, _⟩ :=
                calcMaxPartition_pos hthpos (show (0:Int) < opts.maxWorkers by omega)
              simp only [hq]
              by_cases h6 : parseLevelOk
                  (if opts.logLevel = "" then "error" else opts.logLevel) = true
              · simp only [if_pos h6]
                constructor
                · intro _
                  exact ⟨h1, by omega, by omega, by omega, by omega, ⟨s, rfl⟩, h6⟩
                · intro _
                  exact ⟨_, rfl⟩
              · simp only [if_neg h6]
                constructor
                · rintro ⟨sp, hsp⟩
                  exact absurd hsp (by simp)
                · rintro ⟨_, _, _, _, _, _, hok⟩
                  exact absurd hok h6

/-- C3 (witness): the amended equivalence instantiated at a valid option set
over `127.0.0.0/24`. -/
theorem C3_witness :
    (∀ s, (some net24 : Option IPNetM) = some s →
       CalculateTotalHosts s = some 256) ∧
    ((∃ sp, NewSubping ⟨"", "127.0.0.0/24", 3, 0, 0, 2⟩ (some net24) 256
        (fun _ => "") = Except.ok sp) ↔
      ((⟨"", "127.0.0.0/24", 3, 0, 0, 2⟩ : OptionsM).subnet ≠ "" ∧
       1 ≤ (⟨"", "127.0.0.0/24", 3, 0, 0, 2⟩ : OptionsM).count ∧
       1 ≤ (⟨"", "127.0.0.0/24", 3, 0, 0, 2⟩ : OptionsM).maxWorkers ∧
       0 ≤ (⟨"", "127.0.0.0/24", 3, 0, 0, 2⟩ : OptionsM).timeout ∧
       0 ≤ (⟨"", "127.0.0.0/24", 3, 0, 0, 2⟩ : OptionsM).interval ∧
       (∃ s, (some net24 : Option IPNetM) = some s) ∧
       parseLevelOk (if (⟨"", "127.0.0.0/24", 3, 0, 0, 2⟩ : OptionsM).logLevel = ""
         then "error" else (⟨"", "127.0.0.0/24", 3, 0, 0, 2⟩ : OptionsM).logLevel)
         = true)) :=
  ⟨fun s hsome => by injection hsome with h; rw [← h]; decide,
   C3_construction_iff ⟨"", "127.0.0.0/24", 3, 0, 0, 2⟩ (some net24)
     (fun _ => "") 256
     (fun s hsome => by injection hsome with h; rw [← h]; decide)⟩

/-! ### Claim C7 -/

/-- A process environment with no variables set. -/
def envEmpty : String → String := fun _ => ""

/-- A process environment with CI=true. -/
def envCI : String → String := fun v => if v = "CI" then "true" else ""

/-- A plain valid option set over `127.0.0.0/29`. -/
def optsPlain : OptionsM := ⟨"", "127.0.0.0/29", 1, 0, 0, 2⟩

/-- C7 (counterexample): with identical options, NewSubping constructs a
session holding the real pinger under an empty environment and the mock
pinger when CI=true is set — the core constructor does sniff the process
environment, contradicting the claim. -/
theorem C7_counterexample :
    (NewSubping optsPlain (some net29) 8 envEmpty).toOption.map SubpingM.pinger
      = some PingerKind.real ∧
    (NewSubping optsPlain (some net29) 8 envCI).toOption.map SubpingM.pinger
      = some PingerKind.mock := ⟨rfl, rfl⟩

/-- C7 (amended): the probe variant of `NewSubping` depends on the process
environment (the CI detection of `ping.NewPinger`); it is
`NewSubpingWithPinger` that puts the caller in sole control: for any fixed
options, construction under any two environment states is identical, and on
success the session's variant is exactly the caller's argument. -/
theorem C7_pinger_caller_controlled (opts : OptionsM) (parsed : Option IPNetM)
    (th : Int) (env1 env2 : String → String) (pk : PingerKind) :
    NewSubpingWithPinger opts parsed th env1 pk
      = NewSubpingWithPinger opts parsed th env2 pk ∧
    ∀ sp, NewSubpingWithPinger opts parsed th env1 pk = Except.ok sp →
      sp.pinger = pk := by
  refine ⟨rfl, ?_⟩
  intro sp hsp
  unfold NewSubpingWithPinger at hsp
  rcases parsed with _ | s
  · split_ifs at hsp
  · rcases hcalc : calculateMaxPartitionSize th opts.maxWorkers with e | b
    · rw [hcalc] at hsp
      split_ifs at hsp
    · rw [hcalc] at hsp
      split_ifs at hsp <;> simp at hsp <;> rw [← hsp]

/-! ### Claim C8 -/

theorem truncToInt_of_nonneg {x : Rat} (h : 0 ≤ x) : truncToInt x = ⌊x⌋ := by
  unfold truncToInt
  rw [if_pos h]

/-- C8 (counterexample): the claim's "for every count ≥ 1" is false of the
compiled code: float64 cannot represent `2^53 + 1`, so at `count = 2^53 + 1`
the loopback branch computes `PacketsRecv = fl53 (2^53 + 1) = 2^53 ≠ count` —
while the exact-rational `calculateResult` (and the claim) give `count`
there.  (At `count = 2^60` the public branch similarly diverges, since the
float64 literal 0.1 is not exactly 1/10.) -/
theorem C8_counterexample :
    loopbackRecvCompiled (2 ^ 53 + 1) = 2 ^ 53 ∧
    (2 ^ 53 : Nat) ≠ 2 ^ 53 + 1 ∧
    (calculateResult ((2 : Int) ^ 53 + 1) 1000000 0).packetsRecv
      = (2 : Int) ^ 53 + 1 := by
  refine ⟨by decide, by norm_num, ?_⟩
  show (if truncToInt ((((2 : Int) ^ 53 + 1 : Int) : Rat) * (1 - 0)) < 0 then 0
    else truncToInt ((((2 : Int) ^ 53 + 1 : Int) : Rat) * (1 - 0))) = (2 : Int) ^ 53 + 1
  have hx : ((((2 : Int) ^ 53 + 1 : Int)) : Rat) * (1 - 0)
      = (((2 : Int) ^ 53 + 1 : Int) : Rat) := by ring
  rw [hx, truncToInt_of_nonneg (by positivity), Int.floor_intCast]
  norm_num

/-- C8 (amended): for every `1 ≤ count ≤ 2^49` — a range on which every
float64 intermediate of the compiled code is exact or rounds to the value the
exact-rational model computes, while beyond it the float64 rounding drifts
(see the counterexample) — the synthetic prober with no per-host override
returns, for a loopback address, `PacketsSent = PacketsRecv = count` with
zero loss (and the 1ms mock latency), and for a parseable address that is
neither loopback nor private-range the fixed default public profile: 50ms
average RTT, 10% packet loss, `PacketsRecv = floor(count * 0.9) =
(9*count)/10`. -/
theorem C8_mock_default_profiles (cfg : MockPingerConfig) (count : Int)
    (hc : 1 ≤ count) (hcu : count ≤ 2 ^ 49) (b : List Nat) :
    (isLoopbackB b = true →
       mockPing cfg none (some b) false count
         = Except.ok ⟨1000000, 0, count, count, 0⟩) ∧
    (isLoopbackB b = false → isPrivateB b = false →
       mockPing cfg none (some b) false count
         = Except.ok ⟨50000000, 10, count, 9 * count / 10, 0⟩) := by
  have hc0 : (0 : Rat) ≤ (count : Rat) := by
    exact_mod_cast (show (0:Int) ≤ count by omega)
  constructor
  · intro hlb
    show (if isLocalhostM (some b) false = true then
        Except.ok (calculateResult count 1000000 0)
      else if isPrivateM (some b) = true then
        Except.ok (calculateResult count cfg.defaultLatency cfg.defaultPacketLoss)
      else Except.ok (calculateResult count 50000000 ((1 : Rat) / 10)))
      = Except.ok ⟨1000000, 0, count, count, 0⟩
    rw [if_pos (show isLocalhostM (some b) false = true by
      show (false || isLoopbackB b) = true
      rw [Bool.false_or]
      exact hlb)]
    have hx : (count : Rat) * (1 - 0) = (count : Rat) := by ring
    have hcr : calculateResult count 1000000 0 = ⟨1000000, 0, count, count, 0⟩ := by
      unfold calculateResult
      rw [hx, truncToInt_of_nonneg hc0, Int.floor_intCast,
        if_neg (show ¬ count < 0 by omega)]
      show ResultM.mk 1000000 (0 * 100) count count 0 = _
      rw [show (0 : Rat) * 100 = 0 by ring]
    rw [hcr]
  · intro hlb hpriv
    show (if isLocalhostM (some b) false = true then
        Except.ok (calculateResult count 1000000 0)
      else if isPrivateM (some b) = true then
        Except.ok (calculateResult count cfg.defaultLatency cfg.defaultPacketLoss)
      else Except.ok (calculateResult count 50000000 ((1 : Rat) / 10)))
      = Except.ok ⟨50000000, 10, count, 9 * count / 10, 0⟩
    rw [if_neg (show ¬ isLocalhostM (some b) false = true by
        show ¬ (false || isLoopbackB b) = true
        rw [Bool.false_or, hlb]
        simp),
      if_neg (show ¬ isPrivateM (some b) = true by
        show ¬ isPrivateB b = true
        rw [hpriv]
        simp)]
    have hx : (count : Rat) * (1 - (1 : Rat) / 10)
        = ((9 * count : Int) : Rat) / ((10 : Nat) : Rat) := by
      push_cast
      ring
    have hx0 : (0 : Rat) ≤ (count : Rat) * (1 - (1 : Rat) / 10) := by
      apply mul_nonneg hc0
      norm_num
    have hfl : ⌊(count : Rat) * (1 - (1 : Rat) / 10)⌋ = 9 * count / 10 := by
      rw [hx, Rat.floor_intCast_div_natCast]
      norm_num
    have hrecv0 : 0 ≤ 9 * count / 10 :=
      Int.ediv_nonneg (by omega) (by norm_num)
    have hcr : calculateResult count 50000000 ((1 : Rat) / 10)
        = ⟨50000000, 10, count, 9 * count / 10, 0⟩ := by
      unfold calculateResult
      rw [truncToInt_of_nonneg hx0, hfl, if_neg (show ¬ 9 * count / 10 < 0 by omega)]
      show ResultM.mk 50000000 ((1 : Rat) / 10 * 100) count (9 * count / 10) 0 = _
      rw [show (1 : Rat) / 10 * 100 = 10 by norm_num]
    rw [hcr]

/-- C8 (witness): count 10 against the loopback 127.0.0.1 (10 of 10 packets,
zero loss) and against the public address 8.8.8.8 (9 of 10 packets, 10%
loss). -/
theorem C8_witness :
    ((1 : Int) ≤ 10) ∧ ((10 : Int) ≤ 2 ^ 49) ∧ isLoopbackB [127, 0, 0, 1] = true ∧
    mockPing ⟨10000000, 0⟩ none (some [127, 0, 0, 1]) false 10
      = Except.ok ⟨1000000, 0, 10, 10, 0⟩ ∧
    isLoopbackB [8, 8, 8, 8] = false ∧ isPrivateB [8, 8, 8, 8] = false ∧
    mockPing ⟨10000000, 0⟩ none (some [8, 8, 8, 8]) false 10
      = Except.ok ⟨50000000, 10, 10, 9, 0⟩ :=
  ⟨by norm_num, by norm_num, by decide,
   by
     rw [(C8_mock_default_profiles ⟨10000000, 0⟩ 10 (by norm_num) (by norm_num)
       [127, 0, 0, 1]).1 (by decide)],
   by decide, by decide,
   by
     rw [(C8_mock_default_profiles ⟨10000000, 0⟩ 10 (by norm_num) (by norm_num)
       [8, 8, 8, 8]).2 (by decide) (by decide)]
     norm_num⟩

/-! ### Claim C9 -/

/-- C9: every successful `Next` call returns a view of the iterator's single
cursor buffer — after the call the buffer holds exactly the returned bytes —
and the following `Next` call increments that same buffer in place to the
next address, a different byte string, so the bytes observed through any
previously returned pointer change; a caller must copy or stringify each
address before requesting the next one.  (In the Go code the first call
allocates the buffer once; every later call mutates it via
`currentIP := *it.CurrentIP; currentIP[i]++` without copying, and returns a
pointer into the same backing array.) -/
theorem C9_cursor_aliasing (s : IPNetM) (hs : s.Valid) (k : Nat) :
    (∀ a, emitAt s k = some a → (iterAfter s (k + 1)).currentIP = some a) ∧
    (iterAfter s (k + 2)).currentIP = some (addrOf s (k + 1)) ∧
    addrOf s (k + 1) ≠ addrOf s k := by
  have hW4 : 4 ≤ 2 ^ (8 * s.addrLen) := by
    rcases hs.1 with h | h <;> rw [h] <;> norm_num
  have hWpos : 0 < 2 ^ (8 * s.addrLen) := by omega
  refine ⟨?_, iterAfter_currentIP s hs (k + 1), ?_⟩
  · intro a ha
    cases k with
    | zero =>
      rw [emitAt_zero] at ha
      injection ha with h
      rw [iterAfter_currentIP s hs 0, addrOf_netBytes s hs, h]
    | succ k =>
      rw [emitAt_succ_eq s hs k] at ha
      split_ifs at ha with hcon
      injection ha with h
      rw [iterAfter_currentIP s hs (k + 1), h]
  · intro heq
    have hv := congrArg beVal heq
    unfold addrOf at hv
    rw [beVal_bytesOfNat (by rw [pow256]; exact Nat.mod_lt _ hWpos),
      beVal_bytesOfNat (by rw [pow256]; exact Nat.mod_lt _ hWpos)] at hv
    set M := 2 ^ (8 * s.addrLen) with hMdef
    have halt : (s.netVal + k) % M < M := Nat.mod_lt _ hWpos
    have hstep : (s.netVal + (k + 1)) % M = ((s.netVal + k) % M + 1) % M := by
      have h1 : s.netVal + (k + 1) = s.netVal + k + 1 := rfl
      rw [h1, Nat.add_mod (s.netVal + k) 1 M,
        Nat.mod_eq_of_lt (show (1:Nat) < M by omega)]
    rw [hstep] at hv
    by_cases hend : (s.netVal + k) % M + 1 = M
    · rw [hend, Nat.mod_self] at hv
      omega
    · rw [Nat.mod_eq_of_lt (by omega)] at hv
      omega

/-- C9 (witness): the aliasing statement instantiated at `127.0.0.0/29` and
the first call: the second call overwrites the buffer behind the
previously returned pointer with 127.0.0.1. -/
theorem C9_witness :
    net29.Valid ∧
    ((∀ a, emitAt net29 0 = some a →
        (iterAfter net29 (0 + 1)).currentIP = some a) ∧
     (iterAfter net29 (0 + 2)).currentIP = some (addrOf net29 (0 + 1)) ∧
     addrOf net29 (0 + 1) ≠ addrOf net29 0) :=
  ⟨by decide, C9_cursor_aliasing net29 (by decide) 0⟩

end Subping
